import Mathlib

/-!
Verification of the attribute/macro resolution engine of
`gix-attributes/src/search/outcome.rs` (the `MetadataCollection` / `Outcome` /
`fill_attributes` machinery), via a shallow embedding.

Modelling conventions:
* `AttributeId` is a plain `Nat` (the Rust newtype wraps a `usize` order).
* Rust `Vec` indexing such as `self.matches_by_id[id.0]` panics when out of
  range; the embedding reads through `List.get?` with the `Default::default()`
  slot as fallback and writes through `List.set` (a no-op out of range).
  Theorems about program behaviour carry in-range hypotheses, under which the
  embedding and the source agree; the panic regime is unreachable there.
* The `r#match` field of a slot is called `rmatch` (`match` is reserved).
* `Outcome::initialize` is called `Outcome.init` here (reserved word), and
  `Outcome::initialize_with_selection` is `Outcome.init_with_selection`.
* `remaining: Option<usize>` stays an `Option Nat`; the `expect`-style
  unwraps in the source are modelled with `Option.map`, which agree with the
  source on every initialized session (where `remaining` is `some _`).
* The `while let Some(..) = self.attrs_stack.pop()` loop is modelled with
  explicit fuel (`fillLoop`); `Outcome.potential` is a sufficient fuel bound,
  proved to make the loop complete, so `Outcome.fill_attributes` computes the
  exact source behaviour.
* A Rust `Vec` used as a stack pushes (`extend`) at the end and pops from the
  end.  The embedding keeps the stack as a `List` whose head is the top, so
  `extend xs` becomes `xs.reverse ++ stack` and `pop` takes the head.
-/

namespace Gix

/-- Attribute value state (crate `State`): set, unset, a textual value, or
unspecified. -/
inductive State where
  | Set : State
  | Unset : State
  | Value : String → State
  | Unspecified : State
deriving DecidableEq

/-- An attribute assignment: a name together with its state. -/
structure Assignment where
  name : String
  state : State
deriving DecidableEq

/-- An assignment whose name has been interned: the registry ordinal `id`
plus the assignment itself (field `inner` as in the source). -/
structure TrackedAssignment where
  id : Nat
  inner : Assignment
deriving DecidableEq

/-- A glob pattern (`gix_glob::Pattern`): text, mode bits and the position of
the first wildcard.  Only provenance for this engine; never interpreted. -/
structure Pattern where
  text : String
  mode : Nat
  first_wildcard_pos : Option Nat
deriving DecidableEq

/-- How a match was produced: directly as an attribute, or as a macro; in
both cases with the immediately enclosing macro, if any. -/
inductive MatchKind where
  | Attribute : Option Nat → MatchKind
  | Macro : Option Nat → MatchKind
deriving DecidableEq

/-- Provenance of a match: optional source file path and the caller-assigned
sequence number. -/
structure MatchLocation where
  source : Option String
  sequence_number : Nat
deriving DecidableEq

/-- The record written into a slot once an attribute resolves. -/
structure Match where
  pattern : Pattern
  assignment : Assignment
  kind : MatchKind
  location : MatchLocation
deriving DecidableEq

/-- One slot of the session, indexed by attribute id: the resolved match, if
any, and the macro-member snapshot copied at initialization time.  The
`Default::default()` slot is `⟨none, []⟩`. -/
structure Slot where
  rmatch : Option Match
  macro_attributes : List TrackedAssignment
deriving DecidableEq

/-- Registry entry: the interned ordinal and, for macros, the member list
(non-empty exactly for macros). -/
structure Metadata where
  id : Nat
  macro_attributes : List TrackedAssignment
deriving DecidableEq

/-- The name registry: an insertion-ordered name-to-metadata map. -/
structure MetadataCollection where
  name_to_meta : List (String × Metadata)
deriving DecidableEq

/-- The resolution session (`Outcome`): slots by id, the LIFO work stack
(head = top), the ordered selection, and the countdown. -/
structure Outcome where
  matches_by_id : List Slot
  attrs_stack : List (Nat × Assignment × Option Nat)
  selected : List (String × Option Nat)
  remaining : Option Nat
deriving DecidableEq

/-- Registry size (`name_to_meta.len()`). -/
def MetadataCollection.size (c : MetadataCollection) : Nat :=
  c.name_to_meta.length

/-- Map lookup by name (`name_to_meta.get(name)`). -/
def MetadataCollection.lookup (c : MetadataCollection) (name : String) : Option Metadata :=
  (c.name_to_meta.find? (fun kv => kv.1 == name)).map (fun kv => kv.2)

/-- Update the element at index `i` when it exists (in-range `Vec` write). -/
def updateAt {α : Type} (l : List α) (i : Nat) (f : α → α) : List α :=
  match l.get? i with
  | some a => l.set i (f a)
  | none => l

/-- Model of `Vec::resize(n, d)`: truncate or pad with `d` to length `n`. -/
def resizeWith {α : Type} (l : List α) (n : Nat) (d : α) : List α :=
  l.take n ++ List.replicate (n - l.length) d

/-- The macro-snapshot copy loop of `Outcome::initialize`: for every registry
entry with a non-empty member list, store that list in the slot at its id. -/
def copyMacros (entries : List (String × Metadata)) (slots : List Slot) : List Slot :=
  entries.foldl
    (fun acc kv =>
      if kv.2.macro_attributes.isEmpty then acc
      else updateAt acc kv.2.id (fun s => { s with macro_attributes := kv.2.macro_attributes }))
    slots

/-- `Outcome::match_by_id`: the resolved match at `id`, `none` when the id is
out of range or the slot is unresolved. -/
def Outcome.match_by_id (o : Outcome) (id : Nat) : Option Match :=
  (o.matches_by_id.get? id).bind (fun s => s.rmatch)

/-- `Outcome::reset_remaining`: recompute the countdown from the selection,
or from the slot count when no selection is set. -/
def Outcome.reset_remaining (o : Outcome) : Outcome :=
  { o with
      remaining := some (if o.selected.isEmpty then o.matches_by_id.length
                          else (o.selected.filter (fun pr => pr.2.isSome)).length) }

/-- `Outcome::reset`: clear every slot and the work stack, then recompute the
countdown. -/
def Outcome.reset (o : Outcome) : Outcome :=
  Outcome.reset_remaining
    { o with
        matches_by_id := o.matches_by_id.map (fun s => { s with rmatch := none }),
        attrs_stack := [] }

/-- `Outcome::initialize` (reserved word, hence `init`): when the slot-array
length differs from the registry size, resize to the registry size and copy
every macro's member list into its slot's snapshot; then `reset`. -/
def Outcome.init (o : Outcome) (c : MetadataCollection) : Outcome :=
  Outcome.reset
    (if o.matches_by_id.length ≠ c.size then
      { o with
          matches_by_id := copyMacros c.name_to_meta
                             (resizeWith o.matches_by_id c.size ⟨none, []⟩) }
    else o)

/-- `Outcome::initialize_with_selection`: `init`, then rebuild the selection
as `(name, handle-or-none)` pairs, then recompute the countdown. -/
def Outcome.init_with_selection (o : Outcome) (c : MetadataCollection)
    (names : List String) : Outcome :=
  Outcome.reset_remaining
    { o.init c with
        selected := names.map (fun nm =>
                      (nm, (c.lookup nm).map (fun m => m.id))) }

/-- `Outcome::is_done`: the countdown reached zero.  (On an uninitialized
session the source panics; this model returns `false` there, and every
theorem below concerns initialized sessions only.) -/
def Outcome.is_done (o : Outcome) : Bool :=
  o.remaining == some 0

/-- The mutation half of `Outcome::reduce_and_check_if_done`: decrement the
countdown when the attribute is counted (no selection, or present in the
selection). -/
def Outcome.decrement_if_counted (o : Outcome) (attr : Nat) : Outcome :=
  if o.selected.isEmpty || o.selected.any (fun pr => pr.2 == some attr) then
    { o with remaining := o.remaining.map (fun k => k - 1) }
  else o

/-- `Outcome::reduce_and_check_if_done`: decrement when counted, then report
`is_done`. -/
def Outcome.reduce_and_check_if_done (o : Outcome) (attr : Nat) : Bool × Outcome :=
  ((o.decrement_if_counted attr).is_done, o.decrement_if_counted attr)

/-- `Outcome::iter_selected`: one output per selection entry, in order; the
resolved match when the handle exists and is resolved, otherwise the
placeholder match (empty dummy pattern, unspecified state). -/
def Outcome.iter_selected (o : Outcome) : List Match :=
  o.selected.map (fun pr =>
    match pr.2.bind (fun id => o.match_by_id id) with
    | some m => m
    | none =>
        { pattern := ⟨"", 0, none⟩,
          assignment := ⟨pr.1, State.Unspecified⟩,
          kind := MatchKind.Attribute none,
          location := ⟨none, 0⟩ })

/-- The initial `extend` of `fill_attributes`: push every input entry whose
slot is still unresolved, tagged with no parent, preserving list order (the
reverse-prepend realizes `Vec::extend` + pop-from-end). -/
def Outcome.fillPush (o : Outcome) (attrs : List TrackedAssignment) : Outcome :=
  { o with
      attrs_stack := ((attrs.filter (fun a => (o.match_by_id a.id).isNone)).map
                       (fun a => (a.id, a.inner, (none : Option Nat)))).reverse
                       ++ o.attrs_stack }

/-- The macro-member `extend` inside the loop: push every still-unresolved
member, tagged with the macro as parent. -/
def pushMembers (o : Outcome) (parentId : Nat) (mems : List TrackedAssignment) : Outcome :=
  { o with
      attrs_stack := ((mems.filter (fun a => (o.match_by_id a.id).isNone)).map
                       (fun a => (a.id, a.inner, some parentId))).reverse
                       ++ o.attrs_stack }

/-- The match record written by the loop body: the call's pattern and
provenance, the popped assignment, and the kind determined by whether the
slot's member snapshot is non-empty. -/
def writeMatch (p : Pattern) (src : Option String) (n : Nat)
    (e : Nat × Assignment × Option Nat) (slot : Slot) : Match :=
  { pattern := p,
    assignment := e.2.1,
    kind :=
      if slot.macro_attributes.isEmpty then MatchKind.Attribute e.2.2
      else MatchKind.Macro e.2.2,
    location := ⟨src, n⟩ }

/-- The slot write of the loop body (`slot.r#match = Some(Match { .. })`). -/
def written (p : Pattern) (src : Option String) (n : Nat)
    (o1 : Outcome) (e : Nat × Assignment × Option Nat) (slot : Slot) : Outcome :=
  { o1 with
      matches_by_id := o1.matches_by_id.set e.1
                         { slot with rmatch := some (writeMatch p src n e slot) } }

/-- Write the slot, then decrement the countdown when counted. -/
def afterReduce (p : Pattern) (src : Option String) (n : Nat)
    (o1 : Outcome) (e : Nat × Assignment × Option Nat) (slot : Slot) : Outcome :=
  (written p src n o1 e slot).decrement_if_counted e.1

/-- The unresolved-slot branch of the loop body: write, decrement-and-check,
and on continuation push the macro members when the snapshot is non-empty. -/
def stepWrite (p : Pattern) (src : Option String) (n : Nat)
    (o1 : Outcome) (e : Nat × Assignment × Option Nat) (slot : Slot) : Bool × Outcome :=
  if (afterReduce p src n o1 e slot).is_done then (true, afterReduce p src n o1 e slot)
  else
    (false,
      if slot.macro_attributes.isEmpty then afterReduce p src n o1 e slot
      else pushMembers (afterReduce p src n o1 e slot) e.1 slot.macro_attributes)

/-- One iteration of the `while let Some(..) = pop()` loop body, applied to
the state with the entry already popped: skip when the slot is resolved,
otherwise write the slot, decrement-and-check, and on continuation push the
macro members. -/
def fillStep (p : Pattern) (src : Option String) (n : Nat)
    (o1 : Outcome) (e : Nat × Assignment × Option Nat) : Bool × Outcome :=
  let slot := (o1.matches_by_id.get? e.1).getD ⟨none, []⟩
  if slot.rmatch.isSome then (false, o1)
  else stepWrite p src n o1 e slot

/-- The resolution loop with explicit fuel; `none` means the fuel ran out
before the stack emptied (shown below never to happen at fuel
`Outcome.potential`). -/
def fillLoop (p : Pattern) (src : Option String) (n : Nat) :
    Nat → Outcome → Option (Bool × Outcome)
  | 0, o => if o.attrs_stack.isEmpty then some (false, o) else none
  | fuel + 1, o =>
    match o.attrs_stack with
    | [] => some (false, o)
    | e :: rest =>
      match fillStep p src n { o with attrs_stack := rest } e with
      | (true, o') => some (true, o')
      | (false, o') => fillLoop p src n fuel o'

/-- Weight of a slot for the termination measure: an unresolved slot can be
written once and can push its members once. -/
def slotWeight (s : Slot) : Nat :=
  if s.rmatch.isNone then 1 + s.macro_attributes.length else 0

/-- Termination measure: stack size plus total weight of unresolved slots;
strictly decreases at every loop iteration. -/
def Outcome.potential (o : Outcome) : Nat :=
  o.attrs_stack.length + (o.matches_by_id.map slotWeight).sum

/-- `Outcome::fill_attributes`: push the line's unresolved entries, then run
the loop to completion (fuel `potential` suffices; the `getD` fallback is
provably dead). -/
def Outcome.fill_attributes (o : Outcome) (attrs : List TrackedAssignment)
    (p : Pattern) (src : Option String) (n : Nat) : Bool × Outcome :=
  let o1 := o.fillPush attrs
  (fillLoop p src n o1.potential o1).getD (false, o1)

/-- One caller-supplied matching pattern line: the assignments it carries and
its provenance. -/
structure FillCall where
  attrs : List TrackedAssignment
  pattern : Pattern
  source : Option String
  sequence_number : Nat
deriving DecidableEq

/-- Apply one pattern line to the session. -/
def Outcome.applyCall (o : Outcome) (c : FillCall) : Bool × Outcome :=
  o.fill_attributes c.attrs c.pattern c.source c.sequence_number

/-- Feed a sequence of pattern lines, collecting the boolean results. -/
def runFills (o : Outcome) : List FillCall → List Bool × Outcome
  | [] => ([], o)
  | c :: cs =>
    let r := o.applyCall c
    let rest := runFills r.2 cs
    (r.1 :: rest.1, rest.2)

/-- A fresh session (`Outcome::default()`). -/
def Outcome.blank : Outcome :=
  ⟨[], [], [], none⟩

/-- The macro-member snapshot of the slot at `i` (empty when out of range). -/
def Outcome.slotMems (o : Outcome) (i : Nat) : List TrackedAssignment :=
  ((o.matches_by_id.get? i).map (fun s => s.macro_attributes)).getD []

/-- Number of unresolved slots. -/
def Outcome.unresolvedCount (o : Outcome) : Nat :=
  (o.matches_by_id.map (fun s => if s.rmatch.isNone then 1 else 0)).sum

/-- Number of selection entries whose handle exists and whose slot is still
unresolved. -/
def Outcome.selUnresolved (o : Outcome) : Nat :=
  (o.selected.map (fun pr =>
    match pr.2 with
    | some i => if (o.match_by_id i).isNone then 1 else 0
    | none => 0)).sum

/-- The countdown invariant maintained by every initialized session: the
stored `remaining` equals the number of still-unresolved counted handles. -/
def RemInv (o : Outcome) : Prop :=
  o.remaining = some (if o.selected.isEmpty then o.unresolvedCount else o.selUnresolved)

/-- Well-formedness of a session: every stack entry and every snapshot member
references an in-range slot (the regime in which the source cannot panic). -/
def WFOutcome (o : Outcome) : Prop :=
  (∀ e ∈ o.attrs_stack, e.1 < o.matches_by_id.length) ∧
  (∀ s ∈ o.matches_by_id, ∀ a ∈ s.macro_attributes, a.id < o.matches_by_id.length)

/-- The handles the selection resolved to. -/
def Outcome.selIds (o : Outcome) : List Nat :=
  o.selected.filterMap (fun pr => pr.2)

section ListHelpers

variable {α : Type}

theorem getq_set_self (l : List α) (a : α) :
    ∀ i, i < l.length → (l.set i a).get? i = some a := by
  induction l with
  | nil => intro i h; simp at h
  | cons x xs ih =>
    intro i h
    cases i with
    | zero => rfl
    | succ j => exact ih j (by simpa using Nat.lt_of_succ_lt_succ h)

theorem getq_set_ne (l : List α) (a : α) :
    ∀ i j, i ≠ j → (l.set i a).get? j = l.get? j := by
  induction l with
  | nil => intro i j _; simp
  | cons x xs ih =>
    intro i j hne
    cases i with
    | zero =>
      cases j with
      | zero => exact absurd rfl hne
      | succ k => rfl
    | succ i' =>
      cases j with
      | zero => rfl
      | succ k => exact ih i' k (fun h => hne (by rw [h]))

theorem set_oob (l : List α) (a : α) :
    ∀ i, l.length ≤ i → l.set i a = l := by
  induction l with
  | nil => intro i _; simp
  | cons x xs ih =>
    intro i h
    cases i with
    | zero => simp at h
    | succ j => simpa using ih j (by simpa using Nat.le_of_succ_le_succ h)

theorem sum_map_set (f : α → Nat) (l : List α) :
    ∀ i s s', l.get? i = some s →
      ((l.set i s').map f).sum + f s = (l.map f).sum + f s' := by
  induction l with
  | nil => intro i s s' h; simp at h
  | cons x xs ih =>
    intro i s s' h
    cases i with
    | zero =>
      simp only [List.get?] at h
      cases h
      simp [List.set, Nat.add_comm, Nat.add_left_comm]
    | succ j =>
      simp only [List.get?] at h
      have := ih j s s' h
      simp only [List.set, List.map_cons, List.sum_cons]
      omega

theorem getq_mem {l : List α} {i : Nat} {a : α} (h : l.get? i = some a) : a ∈ l :=
  List.get?_mem h

theorem getq_lt {l : List α} {i : Nat} {a : α} (h : l.get? i = some a) : i < l.length := by
  by_contra hc
  rw [List.get?_eq_none.mpr (Nat.le_of_not_lt hc)] at h
  simp at h

theorem mem_set {l : List α} {i : Nat} {a x : α} (h : x ∈ l.set i a) : x ∈ l ∨ x = a := by
  induction l generalizing i with
  | nil => simp at h
  | cons y ys ih =>
    cases i with
    | zero =>
      rcases List.mem_cons.mp h with h1 | h1
      · exact Or.inr h1
      · exact Or.inl (List.mem_cons_of_mem y h1)
    | succ j =>
      rcases List.mem_cons.mp h with h1 | h1
      · exact Or.inl (h1 ▸ List.mem_cons_self y ys)
      · rcases ih h1 with h2 | h2
        · exact Or.inl (List.mem_cons_of_mem y h2)
        · exact Or.inr h2

end ListHelpers

section StepLemmas

variable (p : Pattern) (src : Option String) (n : Nat) (o1 : Outcome)
variable (e : Nat × Assignment × Option Nat) (slot : Slot)

theorem decrement_matches (o : Outcome) (attr : Nat) :
    (o.decrement_if_counted attr).matches_by_id = o.matches_by_id := by
  unfold Outcome.decrement_if_counted; split <;> rfl

theorem decrement_selected (o : Outcome) (attr : Nat) :
    (o.decrement_if_counted attr).selected = o.selected := by
  unfold Outcome.decrement_if_counted; split <;> rfl

theorem decrement_stack (o : Outcome) (attr : Nat) :
    (o.decrement_if_counted attr).attrs_stack = o.attrs_stack := by
  unfold Outcome.decrement_if_counted; split <;> rfl

theorem decrement_remaining_counted (o : Outcome) (attr : Nat)
    (hc : (o.selected.isEmpty || o.selected.any (fun pr => pr.2 == some attr)) = true) :
    (o.decrement_if_counted attr).remaining = o.remaining.map (fun k => k - 1) := by
  unfold Outcome.decrement_if_counted; rw [if_pos hc]

theorem decrement_remaining_uncounted (o : Outcome) (attr : Nat)
    (hc : (o.selected.isEmpty || o.selected.any (fun pr => pr.2 == some attr)) = false) :
    (o.decrement_if_counted attr).remaining = o.remaining := by
  unfold Outcome.decrement_if_counted
  rw [if_neg (by rw [hc]; exact Bool.false_ne_true)]

theorem pushMembers_matches (o : Outcome) (pid : Nat) (mems : List TrackedAssignment) :
    (pushMembers o pid mems).matches_by_id = o.matches_by_id := rfl

theorem pushMembers_selected (o : Outcome) (pid : Nat) (mems : List TrackedAssignment) :
    (pushMembers o pid mems).selected = o.selected := rfl

theorem pushMembers_remaining (o : Outcome) (pid : Nat) (mems : List TrackedAssignment) :
    (pushMembers o pid mems).remaining = o.remaining := rfl

theorem afterReduce_matches :
    (afterReduce p src n o1 e slot).matches_by_id =
      o1.matches_by_id.set e.1 { slot with rmatch := some (writeMatch p src n e slot) } := by
  unfold afterReduce written; rw [decrement_matches]

theorem afterReduce_selected :
    (afterReduce p src n o1 e slot).selected = o1.selected := by
  unfold afterReduce written; rw [decrement_selected]

theorem afterReduce_stack :
    (afterReduce p src n o1 e slot).attrs_stack = o1.attrs_stack := by
  unfold afterReduce written; rw [decrement_stack]

theorem stepWrite_matches :
    (stepWrite p src n o1 e slot).2.matches_by_id =
      o1.matches_by_id.set e.1 { slot with rmatch := some (writeMatch p src n e slot) } := by
  unfold stepWrite
  split
  · exact afterReduce_matches p src n o1 e slot
  · split
    · exact afterReduce_matches p src n o1 e slot
    · rw [pushMembers_matches]; exact afterReduce_matches p src n o1 e slot

theorem stepWrite_selected :
    (stepWrite p src n o1 e slot).2.selected = o1.selected := by
  unfold stepWrite
  split
  · exact afterReduce_selected p src n o1 e slot
  · split
    · exact afterReduce_selected p src n o1 e slot
    · rw [pushMembers_selected]; exact afterReduce_selected p src n o1 e slot

theorem fillStep_skip {m : Match} (hs : o1.matches_by_id.get? e.1 = some slot)
    (hr : slot.rmatch = some m) :
    fillStep p src n o1 e = (false, o1) := by
  unfold fillStep; rw [hs]; simp [hr]

theorem fillStep_write (hs : o1.matches_by_id.get? e.1 = some slot)
    (hr : slot.rmatch = none) :
    fillStep p src n o1 e = stepWrite p src n o1 e slot := by
  unfold fillStep; rw [hs]; simp [hr]

theorem fillStep_oob (hs : o1.matches_by_id.get? e.1 = none) :
    fillStep p src n o1 e = stepWrite p src n o1 e ⟨none, []⟩ := by
  unfold fillStep; rw [hs]; simp

theorem stepWrite_oob_matches (hs : o1.matches_by_id.get? e.1 = none) :
    (stepWrite p src n o1 e ⟨none, []⟩).2.matches_by_id = o1.matches_by_id := by
  rw [stepWrite_matches]
  exact set_oob _ _ _ (List.get?_eq_none.mp hs)

/-- The basic per-iteration facts: slot-array length, the selection, and
every macro snapshot are preserved; resolved slots are never overwritten; a
newly resolved slot carries this call's pattern and provenance. -/
theorem fillStep_basic :
    (fillStep p src n o1 e).2.matches_by_id.length = o1.matches_by_id.length ∧
    (fillStep p src n o1 e).2.selected = o1.selected ∧
    (∀ i, ((fillStep p src n o1 e).2.matches_by_id.get? i).map (fun s => s.macro_attributes)
        = (o1.matches_by_id.get? i).map (fun s => s.macro_attributes)) ∧
    (∀ i m, o1.match_by_id i = some m → (fillStep p src n o1 e).2.match_by_id i = some m) ∧
    (∀ i m, o1.match_by_id i = none → (fillStep p src n o1 e).2.match_by_id i = some m →
        m.pattern = p ∧ m.location = ⟨src, n⟩) := by
  cases hs : o1.matches_by_id.get? e.1 with
  | none =>
    rw [fillStep_oob p src n o1 e hs]
    have hm := stepWrite_oob_matches p src n o1 e hs
    refine ⟨by rw [hm], stepWrite_selected p src n o1 e _, ?_, ?_, ?_⟩
    · intro i; rw [hm]
    · intro i m h; unfold Outcome.match_by_id at h ⊢; rw [hm]; exact h
    · intro i m h h'; unfold Outcome.match_by_id at h h'; rw [hm] at h'
      rw [h] at h'; cases h'
  | some slot =>
    cases hr : slot.rmatch with
    | some m0 =>
      rw [fillStep_skip p src n o1 e slot hs hr]
      exact ⟨rfl, rfl, fun i => rfl, fun i m h => h, fun i m h h' => by rw [h] at h'; cases h'⟩
    | none =>
      rw [fillStep_write p src n o1 e slot hs hr]
      have hm := stepWrite_matches p src n o1 e slot
      have hlt : e.1 < o1.matches_by_id.length := getq_lt hs
      refine ⟨by rw [hm, List.length_set], stepWrite_selected p src n o1 e slot, ?_, ?_, ?_⟩
      · intro i
        rw [hm]
        by_cases hieq : e.1 = i
        · subst hieq
          rw [getq_set_self _ _ _ hlt, hs]
          rfl
        · rw [getq_set_ne _ _ _ _ hieq]
      · intro i m h
        unfold Outcome.match_by_id at h ⊢
        rw [hm]
        by_cases hieq : e.1 = i
        · subst hieq; rw [hs] at h; simp only [Option.bind] at h; rw [hr] at h; cases h
        · rw [getq_set_ne _ _ _ _ hieq]; exact h
      · intro i m h h'
        unfold Outcome.match_by_id at h h'
        rw [hm] at h'
        by_cases hieq : e.1 = i
        · subst hieq
          rw [getq_set_self _ _ _ hlt] at h'
          simp only [Option.bind] at h'
          cases h'
          exact ⟨rfl, rfl⟩
        · rw [getq_set_ne _ _ _ _ hieq] at h'
          rw [h] at h'; cases h'

theorem stepWrite_true {o' : Outcome} (h : stepWrite p src n o1 e slot = (true, o')) :
    o'.is_done = true ∧ o'.attrs_stack = o1.attrs_stack := by
  unfold stepWrite at h
  split at h
  next hdone =>
    cases h
    exact ⟨hdone, afterReduce_stack p src n o1 e _⟩
  · cases h

theorem stepWrite_false_stack {o' : Outcome} (h : stepWrite p src n o1 e slot = (false, o')) :
    ∀ x ∈ o'.attrs_stack, x ∈ o1.attrs_stack ∨
      ∃ a, a ∈ slot.macro_attributes ∧ x = (a.id, a.inner, some e.1) := by
  unfold stepWrite at h
  split at h
  · cases h
  · split at h <;> cases h
    · intro x hx
      rw [afterReduce_stack] at hx
      exact Or.inl hx
    · intro x hx
      unfold pushMembers at hx
      simp only [List.mem_append, List.mem_reverse, List.mem_map] at hx
      rcases hx with ⟨a, ha, rfl⟩ | hx
      · exact Or.inr ⟨a, List.mem_of_mem_filter ha, rfl⟩
      · rw [afterReduce_stack] at hx
        exact Or.inl hx

/-- A `true` return from the loop body happens exactly at a successful
`reduce_and_check_if_done`, so the resulting state reports done and its stack
is whatever remained. -/
theorem fillStep_true {o' : Outcome} (h : fillStep p src n o1 e = (true, o')) :
    o'.is_done = true ∧ o'.attrs_stack = o1.attrs_stack := by
  cases hs : o1.matches_by_id.get? e.1 with
  | none =>
    rw [fillStep_oob p src n o1 e hs] at h
    exact stepWrite_true p src n o1 e _ h
  | some slot =>
    cases hr : slot.rmatch with
    | some m0 => rw [fillStep_skip p src n o1 e slot hs hr] at h; cases h
    | none =>
      rw [fillStep_write p src n o1 e slot hs hr] at h
      exact stepWrite_true p src n o1 e slot h

/-- A `false` return leaves the stack equal to the remainder, possibly with
still-unresolved macro members pushed on top; every new entry comes from the
popped slot's snapshot, tagged with the popped id as parent. -/
theorem fillStep_false_stack {o' : Outcome} (h : fillStep p src n o1 e = (false, o')) :
    ∀ x ∈ o'.attrs_stack, x ∈ o1.attrs_stack ∨
      ∃ a, a ∈ ((o1.matches_by_id.get? e.1).getD ⟨none, []⟩).macro_attributes ∧
        x = (a.id, a.inner, some e.1) := by
  cases hs : o1.matches_by_id.get? e.1 with
  | none =>
    rw [fillStep_oob p src n o1 e hs] at h
    intro x hx
    rcases stepWrite_false_stack p src n o1 e _ h x hx with h1 | ⟨a, ha, rfl⟩
    · exact Or.inl h1
    · simp at ha
  | some slot =>
    cases hr : slot.rmatch with
    | some m0 =>
      rw [fillStep_skip p src n o1 e slot hs hr] at h
      cases h
      intro x hx
      exact Or.inl hx
    | none =>
      rw [fillStep_write p src n o1 e slot hs hr] at h
      intro x hx
      rcases stepWrite_false_stack p src n o1 e slot h x hx with h1 | ⟨a, ha, rfl⟩
      · exact Or.inl h1
      · exact Or.inr ⟨a, by simpa [hs] using ha, rfl⟩

theorem stepWrite_remaining :
    (stepWrite p src n o1 e slot).2.remaining = (afterReduce p src n o1 e slot).remaining := by
  unfold stepWrite
  split
  · rfl
  · split
    · rfl
    · rw [pushMembers_remaining]

theorem stepWrite_stack_of_empty (hme : slot.macro_attributes = []) :
    (stepWrite p src n o1 e slot).2.attrs_stack = o1.attrs_stack := by
  unfold stepWrite
  split
  · exact afterReduce_stack p src n o1 e slot
  · rw [hme]
    simp only [List.isEmpty_nil, if_true]
    exact afterReduce_stack p src n o1 e slot

theorem stepWrite_stack_len :
    (stepWrite p src n o1 e slot).2.attrs_stack.length
      ≤ o1.attrs_stack.length + slot.macro_attributes.length := by
  unfold stepWrite
  split
  · rw [afterReduce_stack]; omega
  · split
    · rw [afterReduce_stack]; omega
    · unfold pushMembers
      simp only [List.length_append, List.length_reverse, List.length_map, afterReduce_stack]
      have := List.length_filter_le
        (fun a => ((afterReduce p src n o1 e slot).match_by_id a.id).isNone) slot.macro_attributes
      omega

theorem stepWrite_sum (hr : slot.rmatch = none) (hs : o1.matches_by_id.get? e.1 = some slot) :
    ((stepWrite p src n o1 e slot).2.matches_by_id.map slotWeight).sum
        + (1 + slot.macro_attributes.length)
      = (o1.matches_by_id.map slotWeight).sum := by
  rw [stepWrite_matches]
  have h := sum_map_set slotWeight o1.matches_by_id e.1 slot
    { slot with rmatch := some (writeMatch p src n e slot) } hs
  have h1 : slotWeight slot = 1 + slot.macro_attributes.length := by
    unfold slotWeight; rw [hr]; rfl
  have h2 : slotWeight { slot with rmatch := some (writeMatch p src n e slot) } = 0 := by
    unfold slotWeight; rfl
  omega

theorem stepWrite_unres (hr : slot.rmatch = none) (hs : o1.matches_by_id.get? e.1 = some slot) :
    (stepWrite p src n o1 e slot).2.unresolvedCount + 1 = o1.unresolvedCount := by
  unfold Outcome.unresolvedCount
  rw [stepWrite_matches]
  have h := sum_map_set (fun s => if s.rmatch.isNone then 1 else 0) o1.matches_by_id e.1 slot
    { slot with rmatch := some (writeMatch p src n e slot) } hs
  simp only [hr] at h
  simp at h ⊢
  omega

/-- Every loop iteration weakly decreases the termination measure of the
already-popped state (and strictly decreases that of the unpopped one). -/
theorem fillStep_potential {b : Bool} {o' : Outcome} (h : fillStep p src n o1 e = (b, o')) :
    o'.potential ≤ o1.potential := by
  cases hs : o1.matches_by_id.get? e.1 with
  | none =>
    rw [fillStep_oob p src n o1 e hs] at h
    have h2 : (stepWrite p src n o1 e ⟨none, []⟩).2 = o' := by rw [h]
    have hm := stepWrite_oob_matches p src n o1 e hs
    have hstk := stepWrite_stack_of_empty p src n o1 e ⟨none, []⟩ rfl
    unfold Outcome.potential
    rw [← h2, hm, hstk]
  | some slot =>
    cases hr : slot.rmatch with
    | some m0 =>
      rw [fillStep_skip p src n o1 e slot hs hr] at h
      cases h
      exact Nat.le_refl _
    | none =>
      rw [fillStep_write p src n o1 e slot hs hr] at h
      have h2 : (stepWrite p src n o1 e slot).2 = o' := by rw [h]
      have hsum := stepWrite_sum p src n o1 e slot hr hs
      have hlen := stepWrite_stack_len p src n o1 e slot
      unfold Outcome.potential
      rw [← h2]
      omega

theorem selsum_after_write (t : Nat) (f f' : Nat → Option Match)
    (hne : ∀ i, i ≠ t → f' i = f i) (hold : f t = none) (hnew : (f' t).isSome = true) :
    ∀ sel : List (String × Option Nat),
      (sel.map (fun pr => match pr.2 with
        | some i => if (f' i).isNone then 1 else 0
        | none => 0)).sum + sel.countP (fun pr => pr.2 == some t)
      = (sel.map (fun pr => match pr.2 with
        | some i => if (f i).isNone then 1 else 0
        | none => 0)).sum := by
  intro sel
  induction sel with
  | nil => simp
  | cons pr rest ih =>
    rcases pr with ⟨nm, oid⟩
    rw [List.map_cons, List.map_cons, List.sum_cons, List.sum_cons, List.countP_cons]
    cases oid with
    | none => simpa using ih
    | some i =>
      by_cases hit : i = t
      · subst hit
        obtain ⟨v, hv⟩ : ∃ v, f' i = some v := by
          cases hf : f' i
          · rw [hf] at hnew; cases hnew
          · exact ⟨_, rfl⟩
        simp [hv, hold] at ih ⊢
        omega
      · have h2 : ((some i : Option Nat) == some t) = false := by
          simp [hit]
        simp [hne i hit, h2] at ih ⊢
        omega

theorem countP_some_le_one {sel : List (String × Option Nat)}
    (h : (sel.filterMap (fun pr => pr.2)).Nodup) (t : Nat) :
    sel.countP (fun pr => pr.2 == some t) ≤ 1 := by
  induction sel with
  | nil => simp
  | cons pr rest ih =>
    rcases pr with ⟨nm, oid⟩
    rw [List.countP_cons]
    cases oid with
    | none =>
      simp only [List.filterMap_cons] at h
      simpa using ih h
    | some j =>
      simp only [List.filterMap_cons] at h
      have hnd := List.nodup_cons.mp h
      by_cases hjt : j = t
      · subst hjt
        have hz : rest.countP (fun pr => pr.2 == some j) = 0 := by
          rw [List.countP_eq_zero]
          intro pr' hpr' hc
          have : pr'.2 = some j := by
            cases hpr2 : pr'.2
            · rw [hpr2] at hc; cases hc
            · rw [hpr2] at hc; simp at hc; rw [hc]
          exact hnd.1 (List.mem_filterMap.mpr ⟨pr', hpr', this⟩)
        simp [hz]
      · have h2 : ((some j : Option Nat) == some t) = false := by simp [hjt]
        rw [h2]
        simpa using ih hnd.2

/-- The loop body maintains the countdown invariant, provided the selection
has no duplicate handles and the popped entry is in range. -/
theorem fillStep_RemInv
    (hnd : o1.selected = [] ∨ o1.selIds.Nodup) (hinv : RemInv o1)
    (hrange : e.1 < o1.matches_by_id.length) :
    RemInv (fillStep p src n o1 e).2 := by
  cases hs : o1.matches_by_id.get? e.1 with
  | none => exact absurd hrange (by simpa using List.get?_eq_none.mp hs)
  | some slot =>
    cases hr : slot.rmatch with
    | some m0 => rw [fillStep_skip p src n o1 e slot hs hr]; exact hinv
    | none =>
      rw [fillStep_write p src n o1 e slot hs hr]
      have hsel := stepWrite_selected p src n o1 e slot
      have hrem := stepWrite_remaining p src n o1 e slot
      have hmat := stepWrite_matches p src n o1 e slot
      -- facts about the result's match function
      have hne : ∀ i, i ≠ e.1 →
          (stepWrite p src n o1 e slot).2.match_by_id i = o1.match_by_id i := by
        intro i hi
        unfold Outcome.match_by_id
        rw [hmat, getq_set_ne _ _ _ _ (fun hh => hi hh.symm)]
      have holdm : o1.match_by_id e.1 = none := by
        unfold Outcome.match_by_id; rw [hs]; simpa using hr
      have hnewm : ((stepWrite p src n o1 e slot).2.match_by_id e.1).isSome = true := by
        unfold Outcome.match_by_id
        rw [hmat, getq_set_self _ _ _ (getq_lt hs)]
        rfl
      unfold RemInv at hinv ⊢
      rw [hrem, hsel]
      unfold afterReduce
      have hwsel : (written p src n o1 e slot).selected = o1.selected := rfl
      have hwrem : (written p src n o1 e slot).remaining = o1.remaining := rfl
      have hselU : (stepWrite p src n o1 e slot).2.selUnresolved
          = (o1.selected.map (fun pr => match pr.2 with
              | some i => if ((stepWrite p src n o1 e slot).2.match_by_id i).isNone then 1 else 0
              | none => 0)).sum := by
        unfold Outcome.selUnresolved
        rw [hsel]
      have hoU : o1.selUnresolved
          = (o1.selected.map (fun pr => match pr.2 with
              | some i => if (o1.match_by_id i).isNone then 1 else 0
              | none => 0)).sum := rfl
      by_cases hselE : o1.selected.isEmpty
      · -- unselected session: countdown = number of unresolved slots
        rw [if_pos hselE] at hinv
        rw [if_pos hselE]
        have hu := stepWrite_unres p src n o1 e slot hr hs
        have hc : ((written p src n o1 e slot).selected.isEmpty
            || (written p src n o1 e slot).selected.any (fun pr => pr.2 == some e.1)) = true := by
          rw [hwsel, hselE]; rfl
        rw [decrement_remaining_counted _ _ hc, hwrem, hinv]
        have hmap : Option.map (fun k => k - 1) (some o1.unresolvedCount)
            = some (o1.unresolvedCount - 1) := rfl
        rw [hmap]
        exact congrArg some (by omega)
      · -- selected session: countdown = unresolved selected handles
        have hndup : o1.selIds.Nodup := by
          rcases hnd with h1 | h1
          · rw [h1] at hselE; exact absurd rfl hselE
          · exact h1
        have heq : o1.selected.isEmpty = false := by
          rwa [Bool.not_eq_true] at hselE
        rw [if_neg hselE] at hinv
        rw [if_neg hselE]
        have hsum := selsum_after_write e.1 o1.match_by_id
          (stepWrite p src n o1 e slot).2.match_by_id hne holdm hnewm o1.selected
        have hcle := @countP_some_le_one o1.selected hndup e.1
        by_cases hany : o1.selected.any (fun pr => pr.2 == some e.1)
        · have hc : ((written p src n o1 e slot).selected.isEmpty
              || (written p src n o1 e slot).selected.any (fun pr => pr.2 == some e.1)) = true := by
            rw [hwsel, heq, Bool.false_or]; exact hany
          have hpos : 0 < o1.selected.countP (fun pr => pr.2 == some e.1) := by
            rcases List.any_eq_true.mp hany with ⟨x, hx, hpx⟩
            exact List.countP_pos_iff.mpr ⟨x, hx, hpx⟩
          rw [decrement_remaining_counted _ _ hc, hwrem, hinv]
          have hmap : Option.map (fun k => k - 1) (some o1.selUnresolved)
              = some (o1.selUnresolved - 1) := rfl
          rw [hmap]
          exact congrArg some (by omega)
        · have haneq : o1.selected.any (fun pr => pr.2 == some e.1) = false := by
            rwa [Bool.not_eq_true] at hany
          have hc : ((written p src n o1 e slot).selected.isEmpty
              || (written p src n o1 e slot).selected.any (fun pr => pr.2 == some e.1)) = false := by
            rw [hwsel, heq, Bool.false_or]; exact haneq
          have hz : o1.selected.countP (fun pr => pr.2 == some e.1) = 0 := by
            rw [List.countP_eq_zero]
            intro a ha hc2
            have : o1.selected.any (fun pr => pr.2 == some e.1) = true :=
              List.any_eq_true.mpr ⟨a, ha, hc2⟩
            rw [haneq] at this; cases this
          rw [decrement_remaining_uncounted _ _ hc, hwrem, hinv]
          exact congrArg some (by omega)

/-- The loop body preserves well-formedness. -/
theorem fillStep_WF
    (hstack : ∀ x ∈ o1.attrs_stack, x.1 < o1.matches_by_id.length)
    (hslots : ∀ s ∈ o1.matches_by_id, ∀ a ∈ s.macro_attributes,
        a.id < o1.matches_by_id.length) :
    (∀ x ∈ (fillStep p src n o1 e).2.attrs_stack,
        x.1 < (fillStep p src n o1 e).2.matches_by_id.length) ∧
    (∀ s ∈ (fillStep p src n o1 e).2.matches_by_id, ∀ a ∈ s.macro_attributes,
        a.id < (fillStep p src n o1 e).2.matches_by_id.length) := by
  have hlen := (fillStep_basic p src n o1 e).1
  constructor
  · intro x hx
    rw [hlen]
    rcases hb : (fillStep p src n o1 e) with ⟨b, o'⟩
    rw [hb] at hx hlen
    cases b with
    | true =>
      rw [(fillStep_true p src n o1 e hb).2] at hx
      exact hstack x hx
    | false =>
      rcases fillStep_false_stack p src n o1 e hb x hx with h1 | ⟨a, ha, rfl⟩
      · exact hstack x h1
      · cases hs : o1.matches_by_id.get? e.1 with
        | none => rw [hs] at ha; simp at ha
        | some slot =>
          rw [hs] at ha
          exact hslots slot (getq_mem hs) a (by simpa using ha)
  · intro s hms a ha
    rw [hlen]
    cases hs : o1.matches_by_id.get? e.1 with
    | none =>
      rw [fillStep_oob p src n o1 e hs, stepWrite_oob_matches p src n o1 e hs] at hms
      exact hslots s hms a ha
    | some slot =>
      cases hr : slot.rmatch with
      | some m0 =>
        rw [fillStep_skip p src n o1 e slot hs hr] at hms
        exact hslots s hms a ha
      | none =>
        rw [fillStep_write p src n o1 e slot hs hr, stepWrite_matches] at hms
        rcases mem_set hms with h1 | rfl
        · exact hslots s h1 a ha
        · exact hslots slot (getq_mem hs) a (by simpa using ha)

end StepLemmas

section LoopLemmas

variable (p : Pattern) (src : Option String) (n : Nat)

/-- Whole-loop preservation: slot-array length, selection and macro snapshots
are invariant; resolved slots persist; every newly resolved slot carries this
call's pattern and provenance. -/
theorem fillLoop_basic : ∀ (fuel : Nat) (o : Outcome) (b : Bool) (o' : Outcome),
    fillLoop p src n fuel o = some (b, o') →
    o'.matches_by_id.length = o.matches_by_id.length ∧
    o'.selected = o.selected ∧
    (∀ i, (o'.matches_by_id.get? i).map (fun s => s.macro_attributes)
        = (o.matches_by_id.get? i).map (fun s => s.macro_attributes)) ∧
    (∀ i m, o.match_by_id i = some m → o'.match_by_id i = some m) ∧
    (∀ i m, o.match_by_id i = none → o'.match_by_id i = some m →
        m.pattern = p ∧ m.location = ⟨src, n⟩) := by
  intro fuel
  induction fuel with
  | zero =>
    intro o b o' h
    unfold fillLoop at h
    split at h
    · simp only [Option.some.injEq, Prod.mk.injEq] at h
      obtain ⟨rfl, rfl⟩ := h
      exact ⟨rfl, rfl, fun i => rfl, fun i m hm => hm,
        fun i m h1 h2 => by rw [h1] at h2; cases h2⟩
    · cases h
  | succ fuel ih =>
    intro o b o' h
    cases hst : o.attrs_stack with
    | nil =>
      simp only [fillLoop, hst] at h
      simp only [Option.some.injEq, Prod.mk.injEq] at h
      obtain ⟨rfl, rfl⟩ := h
      exact ⟨rfl, rfl, fun i => rfl, fun i m hm => hm,
        fun i m h1 h2 => by rw [h1] at h2; cases h2⟩
    | cons e rest =>
      simp only [fillLoop, hst] at h
      rcases hfs : fillStep p src n { o with attrs_stack := rest } e with ⟨b1, o1⟩
      rw [hfs] at h
      have hb := fillStep_basic p src n { o with attrs_stack := rest } e
      rw [hfs] at hb
      have hpm : ({ o with attrs_stack := rest } : Outcome).matches_by_id
          = o.matches_by_id := rfl
      have hps : ({ o with attrs_stack := rest } : Outcome).selected = o.selected := rfl
      have hpb : ∀ i, ({ o with attrs_stack := rest } : Outcome).match_by_id i
          = o.match_by_id i := fun i => rfl
      simp only [hpm, hps, hpb] at hb
      obtain ⟨l1, s1, sn1, mo1, pv1⟩ := hb
      cases b1 with
      | true =>
        simp only [Option.some.injEq, Prod.mk.injEq] at h
        obtain ⟨rfl, rfl⟩ := h
        exact ⟨l1, s1, sn1, mo1, pv1⟩
      | false =>
        simp only at h
        obtain ⟨l2, s2, sn2, mo2, pv2⟩ := ih o1 b o' h
        refine ⟨l2.trans l1, s2.trans s1, fun i => (sn2 i).trans (sn1 i),
          fun i m hm => mo2 i m (mo1 i m hm), ?_⟩
        intro i m h1 h2
        cases hmid : o1.match_by_id i with
        | none => exact pv2 i m hmid h2
        | some m1 =>
          have h3 := mo2 i m1 hmid
          rw [h3] at h2
          injection h2 with h4
          rw [← h4]
          exact pv1 i m1 h1 hmid

/-- A loop that returns `true` stopped at `reduce_and_check_if_done`, so the
final state reports done. -/
theorem fillLoop_true_done : ∀ (fuel : Nat) (o : Outcome) (o' : Outcome),
    fillLoop p src n fuel o = some (true, o') → o'.is_done = true := by
  intro fuel
  induction fuel with
  | zero =>
    intro o o' h
    unfold fillLoop at h
    split at h
    · simp at h
    · cases h
  | succ fuel ih =>
    intro o o' h
    cases hst : o.attrs_stack with
    | nil =>
      simp only [fillLoop, hst] at h
      simp at h
    | cons e rest =>
      simp only [fillLoop, hst] at h
      rcases hfs : fillStep p src n { o with attrs_stack := rest } e with ⟨b1, o1⟩
      rw [hfs] at h
      cases b1 with
      | true =>
        simp only [Option.some.injEq, Prod.mk.injEq] at h
        obtain ⟨-, rfl⟩ := h
        exact (fillStep_true p src n _ e hfs).1
      | false =>
        simp only at h
        exact ih o1 o' h

/-- A loop that returns `false` ran the stack to empty. -/
theorem fillLoop_false_stack : ∀ (fuel : Nat) (o : Outcome) (o' : Outcome),
    fillLoop p src n fuel o = some (false, o') → o'.attrs_stack = [] := by
  intro fuel
  induction fuel with
  | zero =>
    intro o o' h
    unfold fillLoop at h
    split at h
    next hemp =>
      simp only [Option.some.injEq, Prod.mk.injEq] at h
      obtain ⟨-, rfl⟩ := h
      exact List.isEmpty_iff.mp hemp
    · cases h
  | succ fuel ih =>
    intro o o' h
    cases hst : o.attrs_stack with
    | nil =>
      simp only [fillLoop, hst] at h
      simp only [Option.some.injEq, Prod.mk.injEq] at h
      obtain ⟨-, rfl⟩ := h
      exact hst
    | cons e rest =>
      simp only [fillLoop, hst] at h
      rcases hfs : fillStep p src n { o with attrs_stack := rest } e with ⟨b1, o1⟩
      rw [hfs] at h
      cases b1 with
      | true => simp at h
      | false =>
        simp only at h
        exact ih o1 o' h

/-- The loop maintains the countdown invariant and well-formedness. -/
theorem fillLoop_inv : ∀ (fuel : Nat) (o : Outcome) (b : Bool) (o' : Outcome),
    fillLoop p src n fuel o = some (b, o') →
    (∀ x ∈ o.attrs_stack, x.1 < o.matches_by_id.length) →
    (∀ s ∈ o.matches_by_id, ∀ a ∈ s.macro_attributes, a.id < o.matches_by_id.length) →
    (o.selected = [] ∨ o.selIds.Nodup) → RemInv o →
    RemInv o' ∧ (∀ x ∈ o'.attrs_stack, x.1 < o'.matches_by_id.length) ∧
      (∀ s ∈ o'.matches_by_id, ∀ a ∈ s.macro_attributes, a.id < o'.matches_by_id.length) := by
  intro fuel
  induction fuel with
  | zero =>
    intro o b o' h hstk hsl hnd hinv
    unfold fillLoop at h
    split at h
    · simp only [Option.some.injEq, Prod.mk.injEq] at h
      obtain ⟨-, rfl⟩ := h
      exact ⟨hinv, hstk, hsl⟩
    · cases h
  | succ fuel ih =>
    intro o b o' h hstk hsl hnd hinv
    cases hst : o.attrs_stack with
    | nil =>
      simp only [fillLoop, hst] at h
      simp only [Option.some.injEq, Prod.mk.injEq] at h
      obtain ⟨-, rfl⟩ := h
      exact ⟨hinv, hstk, hsl⟩
    | cons e rest =>
      simp only [fillLoop, hst] at h
      rcases hfs : fillStep p src n { o with attrs_stack := rest } e with ⟨b1, o1⟩
      rw [hfs] at h
      have hrange : e.1 < o.matches_by_id.length := by
        have := hstk e (by rw [hst]; exact List.mem_cons_self e rest)
        exact this
      have hstk' : ∀ x ∈ ({ o with attrs_stack := rest } : Outcome).attrs_stack,
          x.1 < ({ o with attrs_stack := rest } : Outcome).matches_by_id.length := by
        intro x hx
        exact hstk x (by rw [hst]; exact List.mem_cons_of_mem e hx)
      have hnd' : ({ o with attrs_stack := rest } : Outcome).selected = []
          ∨ ({ o with attrs_stack := rest } : Outcome).selIds.Nodup := hnd
      have hinv' : RemInv { o with attrs_stack := rest } := hinv
      have hRem := fillStep_RemInv p src n { o with attrs_stack := rest } e hnd' hinv' hrange
      have hWF := fillStep_WF p src n { o with attrs_stack := rest } e hstk' hsl
      rw [hfs] at hRem hWF
      cases b1 with
      | true =>
        simp only [Option.some.injEq, Prod.mk.injEq] at h
        obtain ⟨-, rfl⟩ := h
        exact ⟨hRem, hWF.1, hWF.2⟩
      | false =>
        simp only at h
        have hsel1 : o1.selected = o.selected := by
          have hb := fillStep_basic p src n { o with attrs_stack := rest } e
          rw [hfs] at hb
          exact hb.2.1
        have hnd1 : o1.selected = [] ∨ o1.selIds.Nodup := by
          unfold Outcome.selIds
          rw [hsel1]
          exact hnd
        exact ih o1 b o' h hWF.1 hWF.2 hnd1 hRem

/-- Fuel sufficiency: at fuel `potential` the loop always completes, for every
state, including sessions whose snapshots encode self- or mutually-recursive
macros. -/
theorem fillLoop_some : ∀ (fuel : Nat) (o : Outcome), o.potential ≤ fuel →
    (fillLoop p src n fuel o).isSome = true := by
  intro fuel
  induction fuel with
  | zero =>
    intro o hpot
    have hstk : o.attrs_stack = [] := by
      unfold Outcome.potential at hpot
      have := Nat.le_zero.mp hpot
      have hlen : o.attrs_stack.length = 0 := by omega
      exact List.length_eq_zero.mp hlen
    unfold fillLoop
    rw [hstk]
    rfl
  | succ fuel ih =>
    intro o hpot
    cases hst : o.attrs_stack with
    | nil => simp [fillLoop, hst]
    | cons e rest =>
      simp only [fillLoop, hst]
      rcases hfs : fillStep p src n { o with attrs_stack := rest } e with ⟨b1, o1⟩
      cases b1 with
      | true => rfl
      | false =>
        simp only
        apply ih o1
        have h1 : o1.potential ≤ ({ o with attrs_stack := rest } : Outcome).potential :=
          fillStep_potential p src n { o with attrs_stack := rest } e hfs
        have h2 : ({ o with attrs_stack := rest } : Outcome).potential + 1 = o.potential := by
          unfold Outcome.potential
          rw [hst]
          simp [List.length_cons]
          omega
        omega

/-- `fill_attributes` computes exactly the loop run at sufficient fuel; the
`getD` fallback is dead. -/
theorem fill_eq_loop (o : Outcome) (attrs : List TrackedAssignment) :
    fillLoop p src n (o.fillPush attrs).potential (o.fillPush attrs)
      = some (o.fill_attributes attrs p src n) := by
  have h := fillLoop_some p src n (o.fillPush attrs).potential (o.fillPush attrs)
    (Nat.le_refl _)
  rcases hr : fillLoop p src n (o.fillPush attrs).potential (o.fillPush attrs) with _ | r
  · rw [hr] at h; cases h
  · show some r
      = some ((fillLoop p src n (o.fillPush attrs).potential (o.fillPush attrs)).getD
          (false, o.fillPush attrs))
    rw [hr]
    rfl

end LoopLemmas

section FillLemmas

variable (p : Pattern) (src : Option String) (n : Nat)

theorem fillPush_matches (o : Outcome) (attrs : List TrackedAssignment) :
    (o.fillPush attrs).matches_by_id = o.matches_by_id := rfl

theorem fillPush_selected (o : Outcome) (attrs : List TrackedAssignment) :
    (o.fillPush attrs).selected = o.selected := rfl

theorem fillPush_match_by_id (o : Outcome) (attrs : List TrackedAssignment) (i : Nat) :
    (o.fillPush attrs).match_by_id i = o.match_by_id i := rfl

theorem fillPush_stack_mem (o : Outcome) (attrs : List TrackedAssignment) :
    ∀ x ∈ (o.fillPush attrs).attrs_stack,
      x ∈ o.attrs_stack ∨ ∃ a, a ∈ attrs ∧ x = (a.id, a.inner, none) := by
  intro x hx
  unfold Outcome.fillPush at hx
  simp only [List.mem_append, List.mem_reverse, List.mem_map] at hx
  rcases hx with ⟨a, ha, rfl⟩ | hx
  · exact Or.inr ⟨a, List.mem_of_mem_filter ha, rfl⟩
  · exact Or.inl hx

/-- Per-call preservation: length, selection and snapshots invariant;
resolved slots persist; new writes carry the call's provenance. -/
theorem fill_basic (o : Outcome) (attrs : List TrackedAssignment) :
    (o.fill_attributes attrs p src n).2.matches_by_id.length = o.matches_by_id.length ∧
    (o.fill_attributes attrs p src n).2.selected = o.selected ∧
    (∀ i, ((o.fill_attributes attrs p src n).2.matches_by_id.get? i).map
          (fun s => s.macro_attributes)
        = (o.matches_by_id.get? i).map (fun s => s.macro_attributes)) ∧
    (∀ i m, o.match_by_id i = some m →
        (o.fill_attributes attrs p src n).2.match_by_id i = some m) ∧
    (∀ i m, o.match_by_id i = none →
        (o.fill_attributes attrs p src n).2.match_by_id i = some m →
        m.pattern = p ∧ m.location = ⟨src, n⟩) := by
  have h := fill_eq_loop p src n o attrs
  rcases hfr : o.fill_attributes attrs p src n with ⟨b, o2⟩
  rw [hfr] at h
  have hb := fillLoop_basic p src n _ _ _ _ h
  have h1 : (o.fillPush attrs).matches_by_id = o.matches_by_id := rfl
  have h2 : (o.fillPush attrs).selected = o.selected := rfl
  have h3 : ∀ i, (o.fillPush attrs).match_by_id i = o.match_by_id i := fun i => rfl
  simp only [h1, h2, h3] at hb
  exact hb

theorem fill_true_done (o : Outcome) (attrs : List TrackedAssignment)
    (h : (o.fill_attributes attrs p src n).1 = true) :
    (o.fill_attributes attrs p src n).2.is_done = true := by
  have hl := fill_eq_loop p src n o attrs
  rcases hfr : o.fill_attributes attrs p src n with ⟨b, o2⟩
  rw [hfr] at hl h
  subst h
  exact fillLoop_true_done p src n _ _ _ hl

theorem fill_false_stack (o : Outcome) (attrs : List TrackedAssignment)
    (h : (o.fill_attributes attrs p src n).1 = false) :
    (o.fill_attributes attrs p src n).2.attrs_stack = [] := by
  have hl := fill_eq_loop p src n o attrs
  rcases hfr : o.fill_attributes attrs p src n with ⟨b, o2⟩
  rw [hfr] at hl h
  subst h
  exact fillLoop_false_stack p src n _ _ _ hl

/-- Per-call invariant preservation for well-formed inputs. -/
theorem fill_inv (o : Outcome) (attrs : List TrackedAssignment)
    (hstk : ∀ x ∈ o.attrs_stack, x.1 < o.matches_by_id.length)
    (hsl : ∀ s ∈ o.matches_by_id, ∀ a ∈ s.macro_attributes, a.id < o.matches_by_id.length)
    (hattr : ∀ a ∈ attrs, a.id < o.matches_by_id.length)
    (hnd : o.selected = [] ∨ o.selIds.Nodup) (hinv : RemInv o) :
    RemInv (o.fill_attributes attrs p src n).2 ∧
    (∀ x ∈ (o.fill_attributes attrs p src n).2.attrs_stack,
        x.1 < (o.fill_attributes attrs p src n).2.matches_by_id.length) ∧
    (∀ s ∈ (o.fill_attributes attrs p src n).2.matches_by_id, ∀ a ∈ s.macro_attributes,
        a.id < (o.fill_attributes attrs p src n).2.matches_by_id.length) := by
  have hl := fill_eq_loop p src n o attrs
  rcases hfr : o.fill_attributes attrs p src n with ⟨b, o2⟩
  rw [hfr] at hl
  have hstk' : ∀ x ∈ (o.fillPush attrs).attrs_stack,
      x.1 < (o.fillPush attrs).matches_by_id.length := by
    intro x hx
    rcases fillPush_stack_mem o attrs x hx with h1 | ⟨a, ha, rfl⟩
    · exact hstk x h1
    · exact hattr a ha
  have hinv' : RemInv (o.fillPush attrs) := hinv
  have hnd' : (o.fillPush attrs).selected = [] ∨ (o.fillPush attrs).selIds.Nodup := hnd
  exact fillLoop_inv p src n _ _ _ _ hl hstk' hsl hnd' hinv'

end FillLemmas

section DoneLemmas

theorem getq_of_mem {α : Type} {l : List α} {a : α} (h : a ∈ l) :
    ∃ i, l.get? i = some a := by
  induction l with
  | nil => simp at h
  | cons x xs ih =>
    rcases List.mem_cons.mp h with rfl | h1
    · exact ⟨0, rfl⟩
    · obtain ⟨i, hi⟩ := ih h1
      exact ⟨i + 1, hi⟩

theorem is_done_of_RemInv (o : Outcome) (h : RemInv o) :
    (o.is_done = true)
      ↔ (if o.selected.isEmpty then o.unresolvedCount else o.selUnresolved) = 0 := by
  unfold Outcome.is_done
  rw [h]
  simp

theorem unresolvedCount_eq_zero_iff (o : Outcome) :
    o.unresolvedCount = 0
      ↔ ∀ i, i < o.matches_by_id.length → (o.match_by_id i).isSome = true := by
  unfold Outcome.unresolvedCount
  rw [List.sum_eq_zero_iff]
  constructor
  · intro h i hi
    cases hg : o.matches_by_id.get? i with
    | none => exact absurd hi (by simpa using List.get?_eq_none.mp hg)
    | some s =>
      have h1 := h _ (List.mem_map.mpr ⟨s, getq_mem hg, rfl⟩)
      unfold Outcome.match_by_id
      rw [hg]
      show (s.rmatch).isSome = true
      cases hr : s.rmatch with
      | none => rw [hr] at h1; simp at h1
      | some m => rfl
  · intro h x hx
    obtain ⟨s, hs, rfl⟩ := List.mem_map.mp hx
    obtain ⟨j, hj⟩ := getq_of_mem hs
    have h1 := h j (getq_lt hj)
    unfold Outcome.match_by_id at h1
    rw [hj] at h1
    have h2 : (s.rmatch).isSome = true := h1
    cases hr : s.rmatch with
    | none => rw [hr] at h2; simp at h2
    | some m => simp [hr]

theorem selUnresolved_eq_zero_iff (o : Outcome) :
    o.selUnresolved = 0 ↔ ∀ i ∈ o.selIds, (o.match_by_id i).isSome = true := by
  unfold Outcome.selUnresolved Outcome.selIds
  rw [List.sum_eq_zero_iff]
  constructor
  · intro h i hi
    obtain ⟨pr, hpr, hpr2⟩ := List.mem_filterMap.mp hi
    have h1 := h _ (List.mem_map.mpr ⟨pr, hpr, rfl⟩)
    rw [hpr2] at h1
    simp only at h1
    cases hr : o.match_by_id i with
    | none => rw [hr] at h1; simp at h1
    | some m => rfl
  · intro h x hx
    obtain ⟨pr, hpr, rfl⟩ := List.mem_map.mp hx
    cases hp2 : pr.2 with
    | none => simp [hp2]
    | some i =>
      have h1 := h i (List.mem_filterMap.mpr ⟨pr, hpr, hp2⟩)
      cases hr : o.match_by_id i with
      | none => rw [hr] at h1; simp at h1
      | some m => simp [hp2, hr]

end DoneLemmas

section ResetInitLemmas

theorem reset_selected (o : Outcome) : (o.reset).selected = o.selected := rfl

theorem reset_stack (o : Outcome) : (o.reset).attrs_stack = [] := rfl

theorem reset_length (o : Outcome) :
    (o.reset).matches_by_id.length = o.matches_by_id.length := by
  unfold Outcome.reset Outcome.reset_remaining
  simp

theorem reset_match_none (o : Outcome) (i : Nat) : (o.reset).match_by_id i = none := by
  unfold Outcome.reset Outcome.reset_remaining Outcome.match_by_id
  simp only [List.get?_map]
  cases o.matches_by_id.get? i <;> rfl

theorem reset_snapshot (o : Outcome) (i : Nat) :
    ((o.reset).matches_by_id.get? i).map (fun s => s.macro_attributes)
      = (o.matches_by_id.get? i).map (fun s => s.macro_attributes) := by
  unfold Outcome.reset Outcome.reset_remaining
  simp only [List.get?_map]
  cases o.matches_by_id.get? i <;> rfl

theorem sum_ones {α : Type} (f : α → Nat) (l : List α) (h : ∀ x ∈ l, f x = 1) :
    (l.map f).sum = l.length := by
  induction l with
  | nil => rfl
  | cons x xs ih =>
    simp only [List.map_cons, List.sum_cons, List.length_cons,
      h x (List.mem_cons_self x xs), ih (fun y hy => h y (List.mem_cons_of_mem x hy))]
    omega

theorem selsum_all_none (f : Nat → Option Match) (hf : ∀ i, f i = none) :
    ∀ sel : List (String × Option Nat),
      (sel.map (fun pr => match pr.2 with
        | some i => if (f i).isNone then 1 else 0
        | none => 0)).sum = (sel.filter (fun pr => pr.2.isSome)).length := by
  intro sel
  induction sel with
  | nil => rfl
  | cons pr rest ih =>
    rcases pr with ⟨nm, oid⟩
    rw [List.map_cons, List.sum_cons, List.filter_cons]
    cases oid with
    | none =>
      have h0 : (match ((nm, none) : String × Option Nat).2 with
          | some i => if (f i).isNone then 1 else 0
          | none => 0) = 0 := rfl
      have h1 : (((nm, none) : String × Option Nat).2.isSome) = false := rfl
      rw [h0, h1, if_neg Bool.false_ne_true, Nat.zero_add]
      exact ih
    | some i =>
      have h0 : (match ((nm, some i) : String × Option Nat).2 with
          | some j => if (f j).isNone then 1 else 0
          | none => 0) = if (f i).isNone then 1 else 0 := rfl
      have h1 : (((nm, some i) : String × Option Nat).2.isSome) = true := rfl
      have h2 : (if (none : Option Match).isNone then (1 : Nat) else 0) = 1 := rfl
      rw [h0, hf i, h2, h1, if_pos rfl, List.length_cons]
      omega

/-- `reset_remaining` establishes the countdown invariant on any state whose
slots are all unresolved. -/
theorem RemInv_reset_remaining (o : Outcome) (hall : ∀ i, o.match_by_id i = none) :
    RemInv (o.reset_remaining) := by
  unfold RemInv Outcome.reset_remaining
  simp only
  refine congrArg some ?_
  by_cases hsel : o.selected.isEmpty
  · rw [if_pos hsel, if_pos hsel]
    unfold Outcome.unresolvedCount
    refine (sum_ones _ _ ?_).symm
    intro s hs
    obtain ⟨j, hj⟩ := getq_of_mem hs
    have hmj := hall j
    unfold Outcome.match_by_id at hmj
    rw [hj] at hmj
    have h2 : s.rmatch = none := hmj
    cases hr : s.rmatch with
    | none => simp
    | some m => rw [hr] at h2; cases h2
  · rw [if_neg hsel, if_neg hsel]
    exact (selsum_all_none (fun i => o.match_by_id i) hall o.selected).symm

theorem reset_RemInv (o : Outcome) : RemInv (o.reset) := by
  unfold Outcome.reset
  apply RemInv_reset_remaining
  intro i
  unfold Outcome.match_by_id
  simp only [List.get?_map]
  cases o.matches_by_id.get? i <;> rfl

theorem init_RemInv (o : Outcome) (c : MetadataCollection) : RemInv (o.init c) :=
  reset_RemInv _

theorem init_match_none (o : Outcome) (c : MetadataCollection) (i : Nat) :
    (o.init c).match_by_id i = none :=
  reset_match_none _ i

theorem initsel_selected (o : Outcome) (c : MetadataCollection) (names : List String) :
    (o.init_with_selection c names).selected
      = names.map (fun nm => (nm, (c.lookup nm).map (fun m => m.id))) := rfl

theorem initsel_stack (o : Outcome) (c : MetadataCollection) (names : List String) :
    (o.init_with_selection c names).attrs_stack = [] := rfl

theorem initsel_match_none (o : Outcome) (c : MetadataCollection) (names : List String)
    (i : Nat) : (o.init_with_selection c names).match_by_id i = none :=
  init_match_none o c i

theorem initsel_RemInv (o : Outcome) (c : MetadataCollection) (names : List String) :
    RemInv (o.init_with_selection c names) := by
  unfold Outcome.init_with_selection
  apply RemInv_reset_remaining
  intro i
  exact init_match_none o c i

theorem updateAt_length {α : Type} (l : List α) (i : Nat) (f : α → α) :
    (updateAt l i f).length = l.length := by
  unfold updateAt
  cases l.get? i with
  | none => rfl
  | some a => exact List.length_set l i (f a)

theorem copyMacros_length (entries : List (String × Metadata)) :
    ∀ init : List Slot, (copyMacros entries init).length = init.length := by
  induction entries with
  | nil => intro init; rfl
  | cons kv rest ih =>
    intro init
    unfold copyMacros
    rw [List.foldl_cons]
    split
    · exact ih init
    · rw [show (List.foldl _ (updateAt init kv.2.id _) rest : List Slot)
          = copyMacros rest (updateAt init kv.2.id
              (fun s => { s with macro_attributes := kv.2.macro_attributes })) from rfl,
        ih _, updateAt_length]

theorem resizeWith_length {α : Type} (l : List α) (k : Nat) (d : α) :
    (resizeWith l k d).length = k := by
  unfold resizeWith
  rw [List.length_append, List.length_take, List.length_replicate]
  omega

theorem init_length (o : Outcome) (c : MetadataCollection) :
    (o.init c).matches_by_id.length = c.size := by
  unfold Outcome.init Outcome.reset Outcome.reset_remaining
  simp only [List.length_map]
  split
  · rw [copyMacros_length, resizeWith_length]
  next hne =>
    have : o.matches_by_id.length = c.size := by
      by_contra hc
      exact hne hc
    simpa using this

theorem initsel_length (o : Outcome) (c : MetadataCollection) (names : List String) :
    (o.init_with_selection c names).matches_by_id.length = c.size :=
  init_length o c

end ResetInitLemmas

section RunLemmas

theorem applyCall_eq (o : Outcome) (c : FillCall) :
    o.applyCall c = o.fill_attributes c.attrs c.pattern c.source c.sequence_number := rfl

/-- Whole-sequence preservation: length, selection, snapshots invariant, and
resolved slots persist across any sequence of calls. -/
theorem runFills_basic : ∀ (calls : List FillCall) (o : Outcome),
    (runFills o calls).2.matches_by_id.length = o.matches_by_id.length ∧
    (runFills o calls).2.selected = o.selected ∧
    (∀ i, ((runFills o calls).2.matches_by_id.get? i).map (fun s => s.macro_attributes)
        = (o.matches_by_id.get? i).map (fun s => s.macro_attributes)) ∧
    (∀ i m, o.match_by_id i = some m → (runFills o calls).2.match_by_id i = some m) := by
  intro calls
  induction calls with
  | nil => intro o; exact ⟨rfl, rfl, fun i => rfl, fun i m hm => hm⟩
  | cons c cs ih =>
    intro o
    have hr2 : (runFills o (c :: cs)).2 = (runFills (o.applyCall c).2 cs).2 := rfl
    have hf := fill_basic c.pattern c.source c.sequence_number o c.attrs
    rw [← applyCall_eq] at hf
    obtain ⟨l1, s1, sn1, mo1, _⟩ := hf
    obtain ⟨l2, s2, sn2, mo2⟩ := ih (o.applyCall c).2
    rw [hr2]
    exact ⟨l2.trans l1, s2.trans s1, fun i => (sn2 i).trans (sn1 i),
      fun i m hm => mo2 i m (mo1 i m hm)⟩

/-- Whole-sequence invariant preservation for well-formed calls. -/
theorem runFills_inv : ∀ (calls : List FillCall) (o : Outcome),
    (∀ x ∈ o.attrs_stack, x.1 < o.matches_by_id.length) →
    (∀ s ∈ o.matches_by_id, ∀ a ∈ s.macro_attributes, a.id < o.matches_by_id.length) →
    (∀ cl ∈ calls, ∀ a ∈ cl.attrs, a.id < o.matches_by_id.length) →
    (o.selected = [] ∨ o.selIds.Nodup) → RemInv o →
    RemInv (runFills o calls).2 ∧
    (∀ x ∈ (runFills o calls).2.attrs_stack,
        x.1 < (runFills o calls).2.matches_by_id.length) ∧
    (∀ s ∈ (runFills o calls).2.matches_by_id, ∀ a ∈ s.macro_attributes,
        a.id < (runFills o calls).2.matches_by_id.length) := by
  intro calls
  induction calls with
  | nil => intro o h1 h2 _ _ h5; exact ⟨h5, h1, h2⟩
  | cons c cs ih =>
    intro o h1 h2 h3 h4 h5
    have hr2 : (runFills o (c :: cs)).2 = (runFills (o.applyCall c).2 cs).2 := rfl
    have hfi := fill_inv c.pattern c.source c.sequence_number o c.attrs h1 h2
      (h3 c (List.mem_cons_self c cs)) h4 h5
    rw [← applyCall_eq] at hfi
    obtain ⟨hinv1, hstk1, hsl1⟩ := hfi
    have hlen1 : (o.applyCall c).2.matches_by_id.length = o.matches_by_id.length := by
      have := (fill_basic c.pattern c.source c.sequence_number o c.attrs).1
      rw [← applyCall_eq] at this
      exact this
    have hsel1 : (o.applyCall c).2.selected = o.selected := by
      have := (fill_basic c.pattern c.source c.sequence_number o c.attrs).2.1
      rw [← applyCall_eq] at this
      exact this
    have h3' : ∀ cl ∈ cs, ∀ a ∈ cl.attrs, a.id < (o.applyCall c).2.matches_by_id.length := by
      intro cl hcl a ha
      rw [hlen1]
      exact h3 cl (List.mem_cons_of_mem c hcl) a ha
    have h4' : (o.applyCall c).2.selected = [] ∨ (o.applyCall c).2.selIds.Nodup := by
      unfold Outcome.selIds
      rw [hsel1]
      exact h4
    rw [hr2]
    exact ih (o.applyCall c).2 hstk1 hsl1 h3' h4' hinv1

/-- A `true` in the result sequence means the state right after that call
reports done. -/
theorem runFills_true_take : ∀ (calls : List FillCall) (o : Outcome) (k : Nat),
    (runFills o calls).1.get? k = some true →
    (runFills o (calls.take (k + 1))).2.is_done = true := by
  intro calls
  induction calls with
  | nil => intro o k h; simp [runFills] at h
  | cons c cs ih =>
    intro o k h
    have hshape : (runFills o (c :: cs)).1
        = (o.applyCall c).1 :: (runFills (o.applyCall c).2 cs).1 := rfl
    rw [hshape] at h
    cases k with
    | zero =>
      simp only [List.get?] at h
      injection h with h1
      have htake : (runFills o ((c :: cs).take 1)).2 = (o.applyCall c).2 := rfl
      rw [htake]
      rw [applyCall_eq] at h1 ⊢
      exact fill_true_done c.pattern c.source c.sequence_number o c.attrs h1
    | succ k' =>
      simp only [List.get?] at h
      have htake : (runFills o ((c :: cs).take (k' + 1 + 1))).2
          = (runFills (o.applyCall c).2 (cs.take (k' + 1))).2 := rfl
      rw [htake]
      exact ih (o.applyCall c).2 k' h

end RunLemmas

section ResetCongr

/-- `reset` depends only on the selection and the per-slot macro snapshots,
both of which every `fill_attributes` call preserves. -/
theorem reset_congr (o1 o2 : Outcome)
    (hm : o1.matches_by_id.map (fun s => s.macro_attributes)
        = o2.matches_by_id.map (fun s => s.macro_attributes))
    (hs : o1.selected = o2.selected) : o1.reset = o2.reset := by
  have hclear : ∀ o : Outcome, o.matches_by_id.map (fun s => { s with rmatch := none })
      = (o.matches_by_id.map (fun s => s.macro_attributes)).map
          (fun ms => ({ rmatch := none, macro_attributes := ms } : Slot)) := by
    intro o
    rw [List.map_map]
    rfl
  have hlen : o1.matches_by_id.length = o2.matches_by_id.length := by
    have h := congrArg List.length hm
    simpa using h
  unfold Outcome.reset Outcome.reset_remaining
  simp only [Outcome.mk.injEq]
  refine ⟨?_, trivial, hs, ?_⟩
  · rw [hclear o1, hclear o2, hm]
  · rw [hs]
    simp only [List.length_map, hlen]

end ResetCongr

section RegistryLemmas

/-- The slot membership produced by the `initialize` copy loop: every slot is
either one of the starting slots or carries some registry entry's member
list. -/
theorem copyMacros_mem (entries : List (String × Metadata)) :
    ∀ (init : List Slot) (s : Slot), s ∈ copyMacros entries init →
      s ∈ init ∨ ∃ kv, kv ∈ entries ∧ s.macro_attributes = kv.2.macro_attributes := by
  induction entries with
  | nil => intro init s hs; exact Or.inl hs
  | cons kv rest ih =>
    intro init s hs
    have hstep : copyMacros (kv :: rest) init
        = copyMacros rest (if kv.2.macro_attributes.isEmpty then init
            else updateAt init kv.2.id
              (fun s => { s with macro_attributes := kv.2.macro_attributes })) := rfl
    rw [hstep] at hs
    rcases ih _ s hs with h1 | ⟨kv', hkv', he⟩
    · split at h1
      · exact Or.inl h1
      · unfold updateAt at h1
        split at h1
        · rcases mem_set h1 with h2 | rfl
          · exact Or.inl h2
          · exact Or.inr ⟨kv, List.mem_cons_self kv rest, rfl⟩
        · exact Or.inl h1
    · exact Or.inr ⟨kv', List.mem_cons_of_mem kv hkv', he⟩

/-- Well-formedness of a fresh initialized session: every snapshot member id
is bounded by the registry size, provided the registry's member lists are. -/
theorem blank_init_slots_WF (c : MetadataCollection)
    (hmb : ∀ pr ∈ c.name_to_meta, ∀ a ∈ pr.2.macro_attributes, a.id < c.size) :
    ∀ s ∈ (Outcome.blank.init c).matches_by_id, ∀ a ∈ s.macro_attributes,
      a.id < (Outcome.blank.init c).matches_by_id.length := by
  intro s hs a ha
  rw [init_length]
  by_cases hsz : c.size = 0
  · have h0 : (Outcome.blank.init c).matches_by_id.length = 0 := by
      rw [init_length, hsz]
    rw [List.length_eq_zero.mp h0] at hs
    simp at hs
  · have hc : Outcome.blank.matches_by_id.length ≠ c.size := by
      intro h
      exact hsz (by simpa using h.symm)
    have hchar : (Outcome.blank.init c).matches_by_id
        = (copyMacros c.name_to_meta (resizeWith Outcome.blank.matches_by_id c.size
            ⟨none, []⟩)).map (fun s => { s with rmatch := none }) := by
      unfold Outcome.init Outcome.reset Outcome.reset_remaining
      rw [if_pos hc]
    rw [hchar] at hs
    obtain ⟨s', hs', rfl⟩ := List.mem_map.mp hs
    rcases copyMacros_mem c.name_to_meta _ s' hs' with h1 | ⟨kv, hkv, he⟩
    · have : s' = (⟨none, []⟩ : Slot) := by
        have hres : resizeWith Outcome.blank.matches_by_id c.size (⟨none, []⟩ : Slot)
            = List.replicate c.size ⟨none, []⟩ := by
          unfold resizeWith Outcome.blank
          simp
        rw [hres] at h1
        exact List.eq_of_mem_replicate h1
      rw [this] at ha
      simp at ha
    · have hmac : ({ s' with rmatch := none } : Slot).macro_attributes
          = kv.2.macro_attributes := he
      rw [hmac] at ha
      exact hmb kv hkv a ha

/-- The canonical-id check for a registry: the entry at position `k` carries
id `k` (always true for registries built by the interning functions). -/
def canonicalFromB : Nat → List (String × Metadata) → Bool
  | _, [] => true
  | k, kv :: rest => (kv.2.id == k) && canonicalFromB (k + 1) rest

/-- A registry is canonical when ids equal positions. -/
def MetadataCollection.canonical (c : MetadataCollection) : Prop :=
  canonicalFromB 0 c.name_to_meta = true

theorem canonicalFromB_get : ∀ (l : List (String × Metadata)) (k j : Nat)
    (pr : String × Metadata),
    canonicalFromB k l = true → l.get? j = some pr → pr.2.id = k + j := by
  intro l
  induction l with
  | nil => intro k j pr _ hg; simp at hg
  | cons kv rest ih =>
    intro k j pr hc hg
    unfold canonicalFromB at hc
    rw [Bool.and_eq_true] at hc
    obtain ⟨h1, h2⟩ := hc
    cases j with
    | zero =>
      simp only [List.get?] at hg
      injection hg with hg1
      rw [← hg1]
      simpa using h1
    | succ j' =>
      simp only [List.get?] at hg
      have := ih (k + 1) j' pr h2 hg
      omega

theorem canonical_lookup_lt (c : MetadataCollection) (hc : c.canonical)
    {nm : String} {meta : Metadata} (hl : c.lookup nm = some meta) :
    meta.id < c.size := by
  unfold MetadataCollection.lookup at hl
  rcases hfind : c.name_to_meta.find? (fun kv => kv.1 == nm) with _ | kv
  · rw [hfind] at hl; cases hl
  · rw [hfind] at hl
    have hkv : kv.2 = meta := by injection hl
    have hmem := List.mem_of_find?_eq_some hfind
    obtain ⟨j, hj⟩ := getq_of_mem hmem
    have hid := canonicalFromB_get c.name_to_meta 0 j kv hc hj
    have hjlt : j < c.name_to_meta.length := getq_lt hj
    rw [← hkv]
    unfold MetadataCollection.size
    omega

theorem canonical_mem_ge : ∀ (l : List (String × Metadata)) (k : Nat),
    canonicalFromB k l = true → ∀ kv ∈ l, k ≤ kv.2.id := by
  intro l k hc kv hkv
  obtain ⟨j, hj⟩ := getq_of_mem hkv
  have := canonicalFromB_get l k j kv hc hj
  omega

theorem copyMacros_get_ne : ∀ (entries : List (String × Metadata)) (init : List Slot)
    (j : Nat), (∀ kv ∈ entries, kv.2.id ≠ j) →
    (copyMacros entries init).get? j = init.get? j := by
  intro entries
  induction entries with
  | nil => intro init j _; rfl
  | cons kv rest ih =>
    intro init j hne
    have hstep : copyMacros (kv :: rest) init
        = copyMacros rest (if kv.2.macro_attributes.isEmpty then init
            else updateAt init kv.2.id
              (fun s => { s with macro_attributes := kv.2.macro_attributes })) := rfl
    rw [hstep, ih _ j (fun kv' h => hne kv' (List.mem_cons_of_mem kv h))]
    split
    · rfl
    · unfold updateAt
      split
      · exact getq_set_ne _ _ _ _ (hne kv (List.mem_cons_self kv rest))
      · rfl

/-- The copy loop of `initialize`, on a canonical registry, stores the k-th
entry's member list at index `start + k` (no later entry overwrites it). -/
theorem copyMacros_get_canonical : ∀ (entries : List (String × Metadata)) (start : Nat)
    (init : List Slot) (k : Nat) (kv : String × Metadata),
    canonicalFromB start entries = true →
    entries.get? k = some kv →
    kv.2.macro_attributes ≠ [] →
    start + k < init.length →
    ((copyMacros entries init).get? (start + k)).map (fun s => s.macro_attributes)
      = some kv.2.macro_attributes := by
  intro entries
  induction entries with
  | nil => intro start init k kv _ hg; simp at hg
  | cons kv0 rest ih =>
    intro start init k kv hc hg hnm hlt
    unfold canonicalFromB at hc
    rw [Bool.and_eq_true] at hc
    obtain ⟨hid0, hcrest⟩ := hc
    have hid0' : kv0.2.id = start := by simpa using hid0
    have hstep : copyMacros (kv0 :: rest) init
        = copyMacros rest (if kv0.2.macro_attributes.isEmpty then init
            else updateAt init kv0.2.id
              (fun s => { s with macro_attributes := kv0.2.macro_attributes })) := rfl
    cases k with
    | zero =>
      simp only [List.get?] at hg
      injection hg with hg1
      subst hg1
      rw [hstep]
      have hne : ∀ kv' ∈ rest, kv'.2.id ≠ start + 0 := by
        intro kv' h
        have := canonical_mem_ge rest (start + 1) hcrest kv' h
        omega
      rw [copyMacros_get_ne rest _ _ hne]
      have hnotempty : kv0.2.macro_attributes.isEmpty = false := by
        cases hme : kv0.2.macro_attributes
        · exact absurd hme hnm
        · rfl
      rw [if_neg (by rw [hnotempty]; exact Bool.false_ne_true)]
      unfold updateAt
      have hlt0 : kv0.2.id < init.length := by omega
      cases hg0 : init.get? kv0.2.id with
      | none => exact absurd hlt0 (by simpa using List.get?_eq_none.mp hg0)
      | some s0 =>
        have : start + 0 = kv0.2.id := by omega
        rw [this, getq_set_self _ _ _ hlt0]
        rfl
    | succ k' =>
      simp only [List.get?] at hg
      rw [hstep]
      have hlen : (if kv0.2.macro_attributes.isEmpty then init
          else updateAt init kv0.2.id
            (fun s => { s with macro_attributes := kv0.2.macro_attributes })).length
          = init.length := by
        split
        · rfl
        · exact updateAt_length _ _ _
      have harith : start + (k' + 1) = (start + 1) + k' := by omega
      rw [harith]
      exact ih (start + 1) _ k' kv hcrest hg hnm (by rw [hlen]; omega)

end RegistryLemmas

section PlainStack

variable (p : Pattern) (src : Option String) (n : Nat)

theorem fillStep_slotMems (o1 : Outcome) (e : Nat × Assignment × Option Nat) (j : Nat) :
    (fillStep p src n o1 e).2.slotMems j = o1.slotMems j := by
  unfold Outcome.slotMems
  rw [(fillStep_basic p src n o1 e).2.2.1 j]

/-- On a stack of plain (non-macro) entries, the processing order is the pop
order: the match recorded for a handle is that of its first entry in pop
order; an early return may instead leave it unresolved. -/
theorem fillLoop_plain (i : Nat) :
    ∀ (fuel : Nat) (o : Outcome) (b : Bool) (o' : Outcome),
    fillLoop p src n fuel o = some (b, o') →
    (∀ x ∈ o.attrs_stack, o.slotMems x.1 = [] ∧ x.1 < o.matches_by_id.length) →
    o.match_by_id i = none →
    ((∀ x ∈ o.attrs_stack, x.1 ≠ i) → o'.match_by_id i = none) ∧
    (∀ (pre post : List (Nat × Assignment × Option Nat)) (e : Nat × Assignment × Option Nat),
      o.attrs_stack = pre ++ e :: post → e.1 = i → (∀ x ∈ pre, x.1 ≠ i) →
      o'.match_by_id i = none ∨
      o'.match_by_id i = some ⟨p, e.2.1, MatchKind.Attribute e.2.2, ⟨src, n⟩⟩) := by
  intro fuel
  induction fuel with
  | zero =>
    intro o b o' h hplain hnone
    unfold fillLoop at h
    split at h
    next hemp =>
      simp only [Option.some.injEq, Prod.mk.injEq] at h
      obtain ⟨-, rfl⟩ := h
      have hnil := List.isEmpty_iff.mp hemp
      refine ⟨fun _ => hnone, ?_⟩
      intro pre post e hdec _ _
      rw [hnil] at hdec
      exact absurd hdec.symm (by simp)
    · cases h
  | succ fuel ih =>
    intro o b o' h hplain hnone
    cases hst : o.attrs_stack with
    | nil =>
      simp only [fillLoop, hst] at h
      simp only [Option.some.injEq, Prod.mk.injEq] at h
      obtain ⟨-, rfl⟩ := h
      refine ⟨fun _ => hnone, ?_⟩
      intro pre post e hdec _ _
      exact absurd hdec.symm (by simp)
    | cons e0 rest =>
      simp only [fillLoop, hst] at h
      obtain ⟨he0mems, he0lt⟩ := hplain e0 (by rw [hst]; exact List.mem_cons_self e0 rest)
      obtain ⟨slot0, hs0⟩ : ∃ s, o.matches_by_id.get? e0.1 = some s := by
        cases hg : o.matches_by_id.get? e0.1
        · exact absurd he0lt (by simpa using List.get?_eq_none.mp hg)
        · exact ⟨_, rfl⟩
      have hmac0 : slot0.macro_attributes = [] := by
        unfold Outcome.slotMems at he0mems
        rw [hs0] at he0mems
        simpa using he0mems
      cases hr0 : slot0.rmatch with
      | some m0 =>
        -- already resolved: the popped entry is skipped
        have hfs := fillStep_skip p src n { o with attrs_stack := rest } e0 slot0 hs0 hr0
        rw [hfs] at h
        simp only at h
        have hplain1 : ∀ x ∈ ({ o with attrs_stack := rest } : Outcome).attrs_stack,
            ({ o with attrs_stack := rest } : Outcome).slotMems x.1 = []
              ∧ x.1 < ({ o with attrs_stack := rest } : Outcome).matches_by_id.length := by
          intro x hx
          exact hplain x (by rw [hst]; exact List.mem_cons_of_mem e0 hx)
        have hih := ih { o with attrs_stack := rest } b o' h hplain1 hnone
        constructor
        · intro hids
          exact hih.1 (fun x hx => hids x (List.mem_cons_of_mem e0 hx))
        · intro pre post e hdec he hpre
          cases pre with
          | nil =>
            simp only [List.nil_append, List.cons.injEq] at hdec
            obtain ⟨rfl, rfl⟩ := hdec
            have : o.match_by_id e0.1 = some m0 := by
              unfold Outcome.match_by_id
              rw [hs0]
              exact hr0
            rw [he] at this
            rw [this] at hnone
            cases hnone
          | cons y pre' =>
            simp only [List.cons_append, List.cons.injEq] at hdec
            obtain ⟨rfl, hdec2⟩ := hdec
            exact hih.2 pre' post e hdec2 he
              (fun x hx => hpre x (List.mem_cons_of_mem _ hx))
      | none =>
        -- unresolved: the popped entry writes the slot
        have hfs0 := fillStep_write p src n { o with attrs_stack := rest } e0 slot0 hs0 hr0
        rcases hsw : stepWrite p src n { o with attrs_stack := rest } e0 slot0 with ⟨b1, o1⟩
        have hfs : fillStep p src n { o with attrs_stack := rest } e0 = (b1, o1) :=
          hfs0.trans hsw
        rw [hfs] at h
        have hm : o1.matches_by_id
            = o.matches_by_id.set e0.1
                { slot0 with rmatch := some (writeMatch p src n e0 slot0) } := by
          have := stepWrite_matches p src n { o with attrs_stack := rest } e0 slot0
          rw [hsw] at this
          exact this
        have hstk : o1.attrs_stack = rest := by
          have := stepWrite_stack_of_empty p src n { o with attrs_stack := rest } e0 slot0 hmac0
          rw [hsw] at this
          exact this
        have hwrite : o1.match_by_id e0.1 = some (writeMatch p src n e0 slot0) := by
          unfold Outcome.match_by_id
          rw [hm, getq_set_self _ _ _ he0lt]
          rfl
        have hkind : writeMatch p src n e0 slot0
            = ⟨p, e0.2.1, MatchKind.Attribute e0.2.2, ⟨src, n⟩⟩ := by
          unfold writeMatch
          rw [hmac0]
          rfl
        have hother : ∀ j, j ≠ e0.1 → o1.match_by_id j = o.match_by_id j := by
          intro j hj
          unfold Outcome.match_by_id
          rw [hm, getq_set_ne _ _ _ _ (fun hh => hj hh.symm)]
        cases b1 with
        | true =>
          simp only [Option.some.injEq, Prod.mk.injEq] at h
          obtain ⟨-, rfl⟩ := h
          constructor
          · intro hids
            have hne : e0.1 ≠ i := hids e0 (List.mem_cons_self e0 rest)
            rw [hother i (fun hh => hne hh.symm)]
            exact hnone
          · intro pre post e hdec he hpre
            cases pre with
            | nil =>
              simp only [List.nil_append, List.cons.injEq] at hdec
              obtain ⟨rfl, rfl⟩ := hdec
              right
              rw [← he, hwrite, hkind]
            | cons y pre' =>
              simp only [List.cons_append, List.cons.injEq] at hdec
              obtain ⟨rfl, -⟩ := hdec
              have hne : e0.1 ≠ i := by
                have := hpre e0 (List.mem_cons_self e0 pre')
                exact this
              left
              rw [hother i (fun hh => hne hh.symm)]
              exact hnone
        | false =>
          simp only at h
          have hplain1 : ∀ x ∈ o1.attrs_stack,
              o1.slotMems x.1 = [] ∧ x.1 < o1.matches_by_id.length := by
            intro x hx
            rw [hstk] at hx
            obtain ⟨ha, hb⟩ := hplain x (by rw [hst]; exact List.mem_cons_of_mem e0 hx)
            have hsm : o1.slotMems x.1 = o.slotMems x.1 := by
              have := fillStep_slotMems p src n { o with attrs_stack := rest } e0 x.1
              rw [hfs] at this
              exact this
            have hlen : o1.matches_by_id.length = o.matches_by_id.length := by
              have := (fillStep_basic p src n { o with attrs_stack := rest } e0).1
              rw [hfs] at this
              exact this
            rw [hsm, hlen]
            exact ⟨ha, hb⟩
          by_cases hii : e0.1 = i
          · -- this pop wrote slot i; the value persists
            have hpersist := (fillLoop_basic p src n fuel o1 b o' h).2.2.2.1
            have hfinal : o'.match_by_id i = some (writeMatch p src n e0 slot0) := by
              apply hpersist
              rw [← hii]
              exact hwrite
            constructor
            · intro hids
              exact absurd hii (hids e0 (List.mem_cons_self e0 rest))
            · intro pre post e hdec he hpre
              cases pre with
              | nil =>
                simp only [List.nil_append, List.cons.injEq] at hdec
                obtain ⟨rfl, rfl⟩ := hdec
                right
                rw [hfinal, hkind]
              | cons y pre' =>
                simp only [List.cons_append, List.cons.injEq] at hdec
                obtain ⟨rfl, -⟩ := hdec
                exact absurd hii (hpre e0 (List.mem_cons_self e0 pre'))
          · -- slot i untouched by this pop
            have hnone1 : o1.match_by_id i = none := by
              rw [hother i (fun hh => hii hh.symm)]
              exact hnone
            have hih := ih o1 b o' h hplain1 hnone1
            constructor
            · intro hids
              apply hih.1
              intro x hx
              rw [hstk] at hx
              exact hids x (List.mem_cons_of_mem e0 hx)
            · intro pre post e hdec he hpre
              cases pre with
              | nil =>
                simp only [List.nil_append, List.cons.injEq] at hdec
                obtain ⟨rfl, rfl⟩ := hdec
                exact absurd he hii
              | cons y pre' =>
                simp only [List.cons_append, List.cons.injEq] at hdec
                obtain ⟨rfl, hdec2⟩ := hdec
                exact hih.2 pre' post e (by rw [hstk]; exact hdec2) he
                  (fun x hx => hpre x (List.mem_cons_of_mem _ hx))

end PlainStack

section MacroPhase

variable (p : Pattern) (src : Option String) (n : Nat)

theorem stepWrite_false_eq (o1 : Outcome) (e : Nat × Assignment × Option Nat) (slot : Slot)
    {o4 : Outcome} (hnm : slot.macro_attributes ≠ [])
    (h : stepWrite p src n o1 e slot = (false, o4)) :
    o4 = pushMembers (afterReduce p src n o1 e slot) e.1 slot.macro_attributes := by
  unfold stepWrite at h
  split at h
  · cases h
  · split at h
    next hemp => exact absurd (List.isEmpty_iff.mp hemp) hnm
    · cases h
      rfl

/-- The member-resolution phase: a stack consisting solely of plain entries
for the member set `S`, all tagged with the macro as parent, resolves (in an
unselected session) every id of `S` with kind `Attribute (some mId)` and this
call's provenance. -/
theorem fillLoop_members (mId : Nat) (S : List Nat) :
    ∀ (fuel : Nat) (o : Outcome) (b : Bool) (o' : Outcome),
    fillLoop p src n fuel o = some (b, o') →
    o.selected = [] →
    RemInv o →
    (∀ x ∈ o.attrs_stack, x.1 ∈ S ∧ x.2.2 = some mId) →
    (∀ j ∈ S, j < o.matches_by_id.length ∧ o.slotMems j = [] ∧
      (∀ mr, o.match_by_id j = some mr →
        mr.kind = MatchKind.Attribute (some mId) ∧ mr.pattern = p ∧ mr.location = ⟨src, n⟩) ∧
      (o.match_by_id j = none → ∃ asg, (j, asg, some mId) ∈ o.attrs_stack)) →
    ∀ j ∈ S, ∃ mr, o'.match_by_id j = some mr ∧
      mr.kind = MatchKind.Attribute (some mId) ∧ mr.pattern = p ∧ mr.location = ⟨src, n⟩ := by
  intro fuel
  induction fuel with
  | zero =>
    intro o b o' h hsel hinv hstack hSinv j hj
    unfold fillLoop at h
    split at h
    next hemp =>
      simp only [Option.some.injEq, Prod.mk.injEq] at h
      obtain ⟨-, rfl⟩ := h
      obtain ⟨-, -, hshape, hent⟩ := hSinv j hj
      cases hmj : o.match_by_id j with
      | none =>
        obtain ⟨asg, hmem⟩ := hent hmj
        rw [List.isEmpty_iff.mp hemp] at hmem
        simp at hmem
      | some mr => exact ⟨mr, rfl, hshape mr hmj⟩
    · cases h
  | succ fuel ih =>
    intro o b o' h hsel hinv hstack hSinv j hj
    cases hst : o.attrs_stack with
    | nil =>
      simp only [fillLoop, hst] at h
      simp only [Option.some.injEq, Prod.mk.injEq] at h
      obtain ⟨-, rfl⟩ := h
      obtain ⟨-, -, hshape, hent⟩ := hSinv j hj
      cases hmj : o.match_by_id j with
      | none =>
        obtain ⟨asg, hmem⟩ := hent hmj
        rw [hst] at hmem
        simp at hmem
      | some mr => exact ⟨mr, rfl, hshape mr hmj⟩
    | cons e0 rest =>
      simp only [fillLoop, hst] at h
      obtain ⟨he0S, he0par⟩ := hstack e0 (by rw [hst]; exact List.mem_cons_self e0 rest)
      obtain ⟨hlt0, hmems0, hshape0, -⟩ := hSinv e0.1 he0S
      obtain ⟨slot0, hs0⟩ : ∃ s, o.matches_by_id.get? e0.1 = some s := by
        cases hg : o.matches_by_id.get? e0.1
        · exact absurd hlt0 (by simpa using List.get?_eq_none.mp hg)
        · exact ⟨_, rfl⟩
      have hmac0 : slot0.macro_attributes = [] := by
        unfold Outcome.slotMems at hmems0
        rw [hs0] at hmems0
        simpa using hmems0
      cases hr0 : slot0.rmatch with
      | some m0 =>
        have hfs := fillStep_skip p src n { o with attrs_stack := rest } e0 slot0 hs0 hr0
        rw [hfs] at h
        simp only at h
        have hres0 : o.match_by_id e0.1 = some m0 := by
          unfold Outcome.match_by_id
          rw [hs0]
          exact hr0
        refine ih { o with attrs_stack := rest } b o' h hsel hinv ?_ ?_ j hj
        · intro x hx
          exact hstack x (by rw [hst]; exact List.mem_cons_of_mem e0 hx)
        · intro j' hj'
          obtain ⟨h1, h2, h3, h4⟩ := hSinv j' hj'
          refine ⟨h1, h2, h3, ?_⟩
          intro hmj'
          have hmj2 : o.match_by_id j' = none := hmj'
          obtain ⟨asg, hmem⟩ := h4 hmj2
          rw [hst] at hmem
          rcases List.mem_cons.mp hmem with heq | hmem2
          · have hje : j' = e0.1 := by rw [← heq]
            rw [hje, hres0] at hmj2
            cases hmj2
          · exact ⟨asg, hmem2⟩
      | none =>
        have hfs0 := fillStep_write p src n { o with attrs_stack := rest } e0 slot0 hs0 hr0
        rcases hsw : stepWrite p src n { o with attrs_stack := rest } e0 slot0 with ⟨b1, o1⟩
        have hfs : fillStep p src n { o with attrs_stack := rest } e0 = (b1, o1) :=
          hfs0.trans hsw
        rw [hfs] at h
        have hm : o1.matches_by_id
            = o.matches_by_id.set e0.1
                { slot0 with rmatch := some (writeMatch p src n e0 slot0) } := by
          have := stepWrite_matches p src n { o with attrs_stack := rest } e0 slot0
          rw [hsw] at this
          exact this
        have hstk : o1.attrs_stack = rest := by
          have := stepWrite_stack_of_empty p src n { o with attrs_stack := rest } e0 slot0 hmac0
          rw [hsw] at this
          exact this
        have hsel1 : o1.selected = o.selected := by
          have := stepWrite_selected p src n { o with attrs_stack := rest } e0 slot0
          rw [hsw] at this
          exact this
        have hlen1 : o1.matches_by_id.length = o.matches_by_id.length := by
          rw [hm, List.length_set]
        have hkind : writeMatch p src n e0 slot0
            = ⟨p, e0.2.1, MatchKind.Attribute e0.2.2, ⟨src, n⟩⟩ := by
          unfold writeMatch
          rw [hmac0]
          rfl
        have hwrite : o1.match_by_id e0.1
            = some ⟨p, e0.2.1, MatchKind.Attribute e0.2.2, ⟨src, n⟩⟩ := by
          unfold Outcome.match_by_id
          rw [hm, getq_set_self _ _ _ hlt0]
          show some (writeMatch p src n e0 slot0) = _
          rw [hkind]
        have hother : ∀ j', j' ≠ e0.1 → o1.match_by_id j' = o.match_by_id j' := by
          intro j' hj'
          unfold Outcome.match_by_id
          rw [hm, getq_set_ne _ _ _ _ (fun hh => hj' hh.symm)]
        have hRem1 : RemInv o1 := by
          have := fillStep_RemInv p src n { o with attrs_stack := rest } e0
            (Or.inl hsel) hinv hlt0
          rw [hfs] at this
          exact this
        have hshape1 : ∀ j' ∈ S, ∀ mr, o1.match_by_id j' = some mr →
            mr.kind = MatchKind.Attribute (some mId) ∧ mr.pattern = p
              ∧ mr.location = ⟨src, n⟩ := by
          intro j' hj' mr hmr
          by_cases hje : j' = e0.1
          · rw [hje, hwrite] at hmr
            injection hmr with hmr1
            rw [← hmr1, he0par]
            exact ⟨rfl, rfl, rfl⟩
          · rw [hother j' hje] at hmr
            exact (hSinv j' hj').2.2.1 mr hmr
        cases b1 with
        | true =>
          simp only [Option.some.injEq, Prod.mk.injEq] at h
          obtain ⟨-, rfl⟩ := h
          have hdone : o1.is_done = true := (fillStep_true p src n _ e0 hfs).1
          have hsel1' : o1.selected.isEmpty = true := by
            rw [hsel1, hsel]
            rfl
          have hrem : o1.remaining = some o1.unresolvedCount := by
            have h2 := hRem1
            unfold RemInv at h2
            rw [if_pos hsel1'] at h2
            exact h2
          have hzero : o1.unresolvedCount = 0 := by
            unfold Outcome.is_done at hdone
            rw [hrem] at hdone
            simpa using hdone
          have hallres := (unresolvedCount_eq_zero_iff o1).mp hzero
          obtain ⟨h1, -, -, -⟩ := hSinv j hj
          have hjres := hallres j (by rw [hlen1]; exact h1)
          cases hmj : o1.match_by_id j with
          | none => rw [hmj] at hjres; cases hjres
          | some mr => exact ⟨mr, rfl, hshape1 j hj mr hmj⟩
        | false =>
          simp only at h
          refine ih o1 b o' h (by rw [hsel1]; exact hsel) hRem1 ?_ ?_ j hj
          · intro x hx
            rw [hstk] at hx
            exact hstack x (by rw [hst]; exact List.mem_cons_of_mem e0 hx)
          · intro j' hj'
            obtain ⟨h1, h2, h3, h4⟩ := hSinv j' hj'
            refine ⟨by rw [hlen1]; exact h1, ?_, hshape1 j' hj', ?_⟩
            · unfold Outcome.slotMems
              rw [hm]
              by_cases hje : e0.1 = j'
              · rw [← hje]
                rw [getq_set_self _ _ _ hlt0]
                unfold Outcome.slotMems at hmems0
                rw [hs0] at hmems0
                rw [← hje] at h2
                simpa using hmems0
              · rw [getq_set_ne _ _ _ _ hje]
                unfold Outcome.slotMems at h2
                exact h2
            · intro hmj'
              have hje : j' ≠ e0.1 := by
                intro heq
                rw [heq, hwrite] at hmj'
                cases hmj'
              rw [hother j' hje] at hmj'
              obtain ⟨asg, hmem⟩ := h4 hmj'
              rw [hst] at hmem
              rcases List.mem_cons.mp hmem with heq | hmem2
              · have : j' = e0.1 := by rw [← heq]
                exact absurd this hje
              · rw [hstk]
                exact ⟨asg, hmem2⟩

/-- A line consisting solely of a macro, fed to an unselected session with an
empty work stack whose member slots are plain and unresolved: the macro is
recorded as `Macro none` and every member ends the call resolved with kind
`Attribute (some macro)` and this call's provenance. -/
theorem fill_macro_solo (o : Outcome) (tm : TrackedAssignment)
    (hsel : o.selected = [])
    (hinv : RemInv o)
    (hstk : o.attrs_stack = [])
    (hlt : tm.id < o.matches_by_id.length)
    (hun : o.match_by_id tm.id = none)
    (hmac : o.slotMems tm.id ≠ [])
    (hmem : ∀ a ∈ o.slotMems tm.id, a.id < o.matches_by_id.length ∧ o.slotMems a.id = [] ∧
        o.match_by_id a.id = none ∧ a.id ≠ tm.id) :
    (o.fill_attributes [tm] p src n).2.match_by_id tm.id
        = some ⟨p, tm.inner, MatchKind.Macro none, ⟨src, n⟩⟩ ∧
    (∀ a ∈ o.slotMems tm.id, ∃ mr,
        (o.fill_attributes [tm] p src n).2.match_by_id a.id = some mr ∧
        mr.kind = MatchKind.Attribute (some tm.id) ∧ mr.pattern = p ∧
        mr.location = ⟨src, n⟩) := by
  obtain ⟨slotM, hsM⟩ : ∃ s, o.matches_by_id.get? tm.id = some s := by
    cases hg : o.matches_by_id.get? tm.id
    · exact absurd hlt (by simpa using List.get?_eq_none.mp hg)
    · exact ⟨_, rfl⟩
  have hmems_eq : o.slotMems tm.id = slotM.macro_attributes := by
    unfold Outcome.slotMems
    rw [hsM]
    rfl
  have hrM : slotM.rmatch = none := by
    have h2 : o.match_by_id tm.id = slotM.rmatch := by
      unfold Outcome.match_by_id
      rw [hsM]
      rfl
    rw [← h2]
    exact hun
  have hnmac : slotM.macro_attributes ≠ [] := by
    rw [← hmems_eq]
    exact hmac
  have hloop := fill_eq_loop p src n o [tm]
  have ho1stack : (o.fillPush [tm]).attrs_stack = [(tm.id, tm.inner, none)] := by
    unfold Outcome.fillPush
    rw [hstk]
    have hisnone : (o.match_by_id tm.id).isNone = true := by rw [hun]; rfl
    simp [hisnone]
  have ho1m : (o.fillPush [tm]).matches_by_id = o.matches_by_id := rfl
  have ho1sel : (o.fillPush [tm]).selected = o.selected := rfl
  obtain ⟨fuel, hfuel⟩ : ∃ f, (o.fillPush [tm]).potential = f + 1 := by
    refine ⟨(o.fillPush [tm]).potential - 1, ?_⟩
    have : 0 < (o.fillPush [tm]).potential := by
      unfold Outcome.potential
      rw [ho1stack]
      simp
    omega
  rw [hfuel] at hloop
  simp only [fillLoop, ho1stack] at hloop
  -- the head entry is the macro itself
  have hpop : ({ o.fillPush [tm] with attrs_stack := ([] : List (Nat × Assignment × Option Nat)) }
      : Outcome).matches_by_id.get? tm.id = some slotM := hsM
  have hfs0 := fillStep_write p src n
    { o.fillPush [tm] with attrs_stack := ([] : List (Nat × Assignment × Option Nat)) }
    (tm.id, tm.inner, none) slotM hpop hrM
  rcases hsw : stepWrite p src n
      { o.fillPush [tm] with attrs_stack := ([] : List (Nat × Assignment × Option Nat)) }
      (tm.id, tm.inner, none) slotM with ⟨b1, o2⟩
  have hfs : fillStep p src n
      { o.fillPush [tm] with attrs_stack := ([] : List (Nat × Assignment × Option Nat)) }
      (tm.id, tm.inner, none) = (b1, o2) := hfs0.trans hsw
  rw [hfs] at hloop
  have hinv2 : RemInv o2 := by
    have := fillStep_RemInv p src n
      { o.fillPush [tm] with attrs_stack := ([] : List (Nat × Assignment × Option Nat)) }
      (tm.id, tm.inner, none) (Or.inl hsel) hinv hlt
    rw [hfs] at this
    exact this
  have hsel2 : o2.selected = o.selected := by
    have := stepWrite_selected p src n
      { o.fillPush [tm] with attrs_stack := ([] : List (Nat × Assignment × Option Nat)) }
      (tm.id, tm.inner, none) slotM
    rw [hsw] at this
    exact this
  have hm2 : o2.matches_by_id
      = o.matches_by_id.set tm.id
          { slotM with
              rmatch := some (writeMatch p src n (tm.id, tm.inner, none) slotM) } := by
    have := stepWrite_matches p src n
      { o.fillPush [tm] with attrs_stack := ([] : List (Nat × Assignment × Option Nat)) }
      (tm.id, tm.inner, none) slotM
    rw [hsw] at this
    exact this
  have hlen2 : o2.matches_by_id.length = o.matches_by_id.length := by
    rw [hm2, List.length_set]
  have hkindM : writeMatch p src n (tm.id, tm.inner, none) slotM
      = ⟨p, tm.inner, MatchKind.Macro none, ⟨src, n⟩⟩ := by
    unfold writeMatch
    have : slotM.macro_attributes.isEmpty = false := by
      cases hme : slotM.macro_attributes
      · exact absurd hme hnmac
      · rfl
    rw [this]
    rfl
  have hwriteM : o2.match_by_id tm.id = some ⟨p, tm.inner, MatchKind.Macro none, ⟨src, n⟩⟩ := by
    unfold Outcome.match_by_id
    rw [hm2, getq_set_self _ _ _ hlt]
    show some (writeMatch p src n (tm.id, tm.inner, none) slotM) = _
    rw [hkindM]
  have hother2 : ∀ j, j ≠ tm.id → o2.match_by_id j = o.match_by_id j := by
    intro j hj
    unfold Outcome.match_by_id
    rw [hm2, getq_set_ne _ _ _ _ (fun hh => hj hh.symm)]
  obtain ⟨a0, ha0⟩ : ∃ a, a ∈ slotM.macro_attributes := by
    cases hme : slotM.macro_attributes
    · exact absurd hme hnmac
    · exact ⟨_, List.mem_cons_self _ _⟩
  obtain ⟨ha0lt, ha0pl, ha0un, ha0ne⟩ := hmem a0 (by rw [hmems_eq]; exact ha0)
  cases b1 with
  | true =>
    -- impossible: a member slot is still unresolved, so the countdown is not 0
    exfalso
    have hdone : o2.is_done = true := (fillStep_true p src n _ _ hfs).1
    have hsel2' : o2.selected.isEmpty = true := by
      rw [hsel2, hsel]
      rfl
    have hrem : o2.remaining = some o2.unresolvedCount := by
      have h2 := hinv2
      unfold RemInv at h2
      rw [if_pos hsel2'] at h2
      exact h2
    have hzero : o2.unresolvedCount = 0 := by
      unfold Outcome.is_done at hdone
      rw [hrem] at hdone
      simpa using hdone
    have hallres := (unresolvedCount_eq_zero_iff o2).mp hzero
    have ha0res := hallres a0.id (by rw [hlen2]; exact ha0lt)
    rw [hother2 a0.id ha0ne, ha0un] at ha0res
    cases ha0res
  | false =>
    simp only at hloop
    have ho2eq := stepWrite_false_eq p src n
      { o.fillPush [tm] with attrs_stack := ([] : List (Nat × Assignment × Option Nat)) }
      (tm.id, tm.inner, none) slotM hnmac hsw
    have ho2stack : o2.attrs_stack
        = ((slotM.macro_attributes.filter (fun a =>
            ((afterReduce p src n
              { o.fillPush [tm] with attrs_stack := ([] : List (Nat × Assignment × Option Nat)) }
              (tm.id, tm.inner, none) slotM).match_by_id a.id).isNone)).map
            (fun a => (a.id, a.inner, some tm.id))).reverse ++ [] := by
      rw [ho2eq]
      unfold pushMembers
      rw [afterReduce_stack]
    have hafter_match : ∀ j, j ≠ tm.id →
        (afterReduce p src n
          { o.fillPush [tm] with attrs_stack := ([] : List (Nat × Assignment × Option Nat)) }
          (tm.id, tm.inner, none) slotM).match_by_id j = o.match_by_id j := by
      intro j hj
      have h1 : (afterReduce p src n
          { o.fillPush [tm] with attrs_stack := ([] : List (Nat × Assignment × Option Nat)) }
          (tm.id, tm.inner, none) slotM).match_by_id j = o2.match_by_id j := by
        rw [ho2eq]
        rfl
      rw [h1]
      exact hother2 j hj
    have hfilter_all : slotM.macro_attributes.filter (fun a =>
        ((afterReduce p src n
          { o.fillPush [tm] with attrs_stack := ([] : List (Nat × Assignment × Option Nat)) }
          (tm.id, tm.inner, none) slotM).match_by_id a.id).isNone)
        = slotM.macro_attributes := by
      apply List.filter_eq_self.mpr
      intro a ha
      obtain ⟨-, -, haun, hane⟩ := hmem a (by rw [hmems_eq]; exact ha)
      rw [hafter_match a.id hane, haun]
      rfl
    rw [hfilter_all] at ho2stack
    -- apply the member phase with S = member ids
    have hphase := fillLoop_members p src n tm.id (slotM.macro_attributes.map (fun a => a.id))
      fuel o2 _ _ hloop (by rw [hsel2]; exact hsel) hinv2 ?_ ?_
    · constructor
      · -- the macro's own record persists through the member phase
        have := (fillLoop_basic p src n fuel o2 _ _ hloop).2.2.2.1
        exact this tm.id _ hwriteM
      · intro a ha
        rw [hmems_eq] at ha
        obtain ⟨mr, hmr, hk⟩ := hphase a.id (List.mem_map.mpr ⟨a, ha, rfl⟩)
        exact ⟨mr, hmr, hk⟩
    · -- every stack entry is a member entry tagged with the macro
      intro x hx
      rw [ho2stack] at hx
      simp only [List.append_nil, List.mem_reverse, List.mem_map] at hx
      obtain ⟨a, ha, rfl⟩ := hx
      exact ⟨List.mem_map.mpr ⟨a, ha, rfl⟩, rfl⟩
    · -- the member-set invariant holds after the macro write
      intro j hj
      obtain ⟨a, ha, rfl⟩ := List.mem_map.mp hj
      obtain ⟨halt, hapl, haun, hane⟩ := hmem a (by rw [hmems_eq]; exact ha)
      refine ⟨by rw [hlen2]; exact halt, ?_, ?_, ?_⟩
      · unfold Outcome.slotMems
        rw [hm2, getq_set_ne _ _ _ _ (fun hh => hane hh.symm)]
        unfold Outcome.slotMems at hapl
        exact hapl
      · intro mr hmr
        rw [hother2 a.id hane, haun] at hmr
        cases hmr
      · intro hmj
        rw [ho2stack]
        simp only [List.append_nil, List.mem_reverse, List.mem_map]
        exact ⟨a.inner, a, ha, rfl⟩

end MacroPhase

section Scenarios

/-- Provenance pattern for the first call of the two-call scenarios. -/
def patP1 : Pattern := ⟨"p1", 0, none⟩

/-- Provenance pattern for the second call of the two-call scenarios. -/
def patP2 : Pattern := ⟨"p2", 0, none⟩

/-- Provenance pattern for the LIFO-order scenarios. -/
def patQ : Pattern := ⟨"q", 0, none⟩

/-- The `*.png` pattern of the spec's concrete scenario. -/
def pngPattern : Pattern := ⟨"*.png", 0, none⟩

/-- A generic catch-all pattern. -/
def starPattern : Pattern := ⟨"*", 0, none⟩

/-- Registry with two plain attributes `a` (id 0) and `b` (id 1). -/
def abRegistry : MetadataCollection := ⟨[("a", ⟨0, []⟩), ("b", ⟨1, []⟩)]⟩

/-- Session over `abRegistry` selecting only `a`. -/
def abSession : Outcome := Outcome.blank.init_with_selection abRegistry ["a"]

/-- First call: the line `b a`; resolving `a` completes the selection, so the
call returns early with the `b` entry left on the stack. -/
def abRun1 : Bool × Outcome :=
  abSession.fill_attributes [⟨1, ⟨"b", State.Set⟩⟩, ⟨0, ⟨"a", State.Set⟩⟩] patP1 none 1

/-- Second call: a new line mentioning `b` again with a different state. -/
def abRun2 : Bool × Outcome :=
  abRun1.2.fill_attributes [⟨1, ⟨"b", State.Unset⟩⟩] patP2 none 2

/-- Second call variant: an empty line, so only the leftover entry runs. -/
def abRun2e : Bool × Outcome := abRun1.2.fill_attributes [] patP2 none 2

/-- Registry with a single plain attribute `a`. -/
def aRegistry : MetadataCollection := ⟨[("a", ⟨0, []⟩)]⟩

/-- Session selecting the same name twice. -/
def dupSession : Outcome := Outcome.blank.init_with_selection aRegistry ["a", "a"]

/-- One call resolving `a` in the duplicated-selection session. -/
def dupRun : Bool × Outcome := dupSession.fill_attributes [⟨0, ⟨"a", State.Set⟩⟩] patP1 none 1

/-- Registry whose only entry is a (self-referential) macro `m`. -/
def selfMacroRegistry : MetadataCollection := ⟨[("m", ⟨0, [⟨0, ⟨"a", State.Unset⟩⟩]⟩)]⟩

/-- A session whose slot array already has the registry's size but a stale
(empty) snapshot. -/
def sameLenSession : Outcome := ⟨[⟨none, []⟩], [], [], none⟩

/-- A session whose slot array is larger than the registry. -/
def longerSession : Outcome := ⟨[⟨none, []⟩, ⟨none, []⟩], [], [], none⟩

/-- The spec's concrete registry: plain `text` (id 0), macro `binary` (id 1)
with members `text=false, diff=false`, and `diff` (id 2). -/
def binRegistry : MetadataCollection :=
  ⟨[("text", ⟨0, []⟩),
    ("binary", ⟨1, [⟨0, ⟨"text", State.Unset⟩⟩, ⟨2, ⟨"diff", State.Unset⟩⟩]⟩),
    ("diff", ⟨2, []⟩)]⟩

/-- Session over `binRegistry` selecting exactly `text`, `diff`, `binary`. -/
def binSession : Outcome :=
  Outcome.blank.init_with_selection binRegistry ["text", "diff", "binary"]

/-- Resolving the line `*.png binary`. -/
def binRun : Bool × Outcome :=
  binSession.fill_attributes [⟨1, ⟨"binary", State.Set⟩⟩] pngPattern none 1

/-- Registry with nested macros: `m1` (id 0) expands to `m2` (id 1), which
expands to the plain `a` (id 2). -/
def nestRegistry : MetadataCollection :=
  ⟨[("m1", ⟨0, [⟨1, ⟨"m2", State.Set⟩⟩]⟩),
    ("m2", ⟨1, [⟨2, ⟨"a", State.Set⟩⟩]⟩),
    ("a", ⟨2, []⟩)]⟩

/-- Resolving the line `* m1` in an unselected session. -/
def nestRun : Bool × Outcome :=
  (Outcome.blank.init nestRegistry).fill_attributes [⟨0, ⟨"m1", State.Set⟩⟩] starPattern none 1

/-- Registry with macro `m` (id 0) whose only member is the plain `a`
(id 1). -/
def maRegistry : MetadataCollection :=
  ⟨[("m", ⟨0, [⟨1, ⟨"a", State.Unset⟩⟩]⟩), ("a", ⟨1, []⟩)]⟩

/-- Session over `maRegistry` selecting only the macro itself. -/
def selMacroSession : Outcome := Outcome.blank.init_with_selection maRegistry ["m"]

/-- Resolving the line `* m` in the macro-only selection. -/
def selMacroRun : Bool × Outcome :=
  selMacroSession.fill_attributes [⟨0, ⟨"m", State.Set⟩⟩] starPattern none 1

/-- Registry with plain `a` (id 0) and macro `m` (id 1) whose member is `a`. -/
def amRegistry : MetadataCollection :=
  ⟨[("a", ⟨0, []⟩), ("m", ⟨1, [⟨0, ⟨"a", State.Unset⟩⟩]⟩)]⟩

/-- Unselected session over `amRegistry`. -/
def amSession : Outcome := Outcome.blank.init amRegistry

/-- The line `a m` (direct `a` listed before the macro): the macro pops
first, so `a` is recorded via the macro. -/
def amRunAM : Bool × Outcome :=
  amSession.fill_attributes [⟨0, ⟨"a", State.Set⟩⟩, ⟨1, ⟨"m", State.Set⟩⟩] patQ none 1

/-- The line `m a` (macro listed first): the direct `a` pops first. -/
def amRunMA : Bool × Outcome :=
  amSession.fill_attributes [⟨1, ⟨"m", State.Set⟩⟩, ⟨0, ⟨"a", State.Set⟩⟩] patQ none 1

/-- Registry whose macro `s` (id 0) contains itself. -/
def selfRefRegistry : MetadataCollection := ⟨[("s", ⟨0, [⟨0, ⟨"s", State.Set⟩⟩]⟩)]⟩

/-- Unselected session over the self-referential registry. -/
def selfRefSession : Outcome := Outcome.blank.init selfRefRegistry

end Scenarios

section Claims

/-- C8: `match_by_id` is total and never fails: for any id whose slot exists
it returns exactly that slot's stored (possibly absent) match, and for any id
at or beyond the slot-array length it returns `none`; in particular it is
`none` when the slot is unresolved and the resolved `Match` otherwise. -/
theorem c8_match_by_id_total :
    (∀ (o : Outcome) (id : Nat) (s : Slot), o.matches_by_id.get? id = some s →
        o.match_by_id id = s.rmatch) ∧
    (∀ (o : Outcome) (id : Nat), o.matches_by_id.length ≤ id →
        o.match_by_id id = none) := by
  constructor
  · intro o id s hs
    unfold Outcome.match_by_id
    rw [hs]
    rfl
  · intro o id h
    unfold Outcome.match_by_id
    rw [List.get?_eq_none.mpr h]
    rfl

/-- Witness for C8 at a concrete session: an unresolved slot and an
out-of-range id both give `none`. -/
theorem c8_witness :
    Outcome.match_by_id ⟨[⟨none, []⟩], [], [], none⟩ 0 = none ∧
    Outcome.match_by_id ⟨[⟨none, []⟩], [], [], none⟩ 5 = none := by
  constructor
  · exact c8_match_by_id_total.1 ⟨[⟨none, []⟩], [], [], none⟩ 0 ⟨none, []⟩ rfl
  · exact c8_match_by_id_total.2 ⟨[⟨none, []⟩], [], [], none⟩ 5 (by decide)

/-- C6: the resolution loop terminates for every input — the fuel
`Outcome.potential` (stack size plus, per unresolved slot, one write plus its
member-list size) always suffices, with no cycle detection: already-resolved
slots are skipped on pop and already-resolved ids are filtered out on push,
so self- or mutually-referential snapshots cannot extend the run.  The second
conjunct bounds that fuel for a `fill_attributes` call by the line length
plus the sum of all slots' member-list sizes. -/
theorem c6_termination :
    (∀ (p : Pattern) (src : Option String) (n : Nat) (fuel : Nat) (o : Outcome),
        o.potential ≤ fuel → (fillLoop p src n fuel o).isSome = true) ∧
    (∀ (o : Outcome) (attrs : List TrackedAssignment),
        (o.fillPush attrs).potential
          ≤ o.attrs_stack.length + attrs.length
            + (o.matches_by_id.map (fun s => 1 + s.macro_attributes.length)).sum) := by
  constructor
  · intro p src n fuel o h
    exact fillLoop_some p src n fuel o h
  · intro o attrs
    unfold Outcome.potential Outcome.fillPush
    simp only [List.length_append, List.length_reverse, List.length_map]
    have h1 : (attrs.filter (fun a => (o.match_by_id a.id).isNone)).length ≤ attrs.length :=
      List.length_filter_le _ _
    have h2 : (o.matches_by_id.map slotWeight).sum
        ≤ (o.matches_by_id.map (fun s => 1 + s.macro_attributes.length)).sum := by
      apply List.sum_le_sum
      intro x hx
      unfold slotWeight
      split <;> omega
    omega

/-- C9: resetting and replaying an identical call sequence reproduces the
identical boolean results and the identical final state (hence identical
Match results per slot and identical `remaining` count); the selection
persists unchanged across `reset`. -/
theorem c9_idempotent_replay :
    ∀ (o : Outcome) (calls : List FillCall),
      runFills ((runFills (o.reset) calls).2.reset) calls = runFills (o.reset) calls ∧
      (o.reset).selected = o.selected := by
  intro o calls
  refine ⟨?_, rfl⟩
  have hb := runFills_basic calls (o.reset)
  have hmm : (runFills (o.reset) calls).2.matches_by_id.map (fun s => s.macro_attributes)
      = (o.reset).matches_by_id.map (fun s => s.macro_attributes) := by
    apply List.ext
    intro k
    rw [List.get?_map, List.get?_map]
    exact hb.2.2.1 k
  have hkey : (runFills (o.reset) calls).2.reset = (o.reset).reset :=
    reset_congr _ _ hmm hb.2.1
  have hidem : (o.reset).reset = o.reset := by
    apply reset_congr
    · apply List.ext
      intro k
      rw [List.get?_map, List.get?_map]
      exact reset_snapshot o k
    · rfl
  rw [hkey, hidem]

/-- Witness for C6 at a self-referential macro: the loop completes on the
session whose macro `s` contains itself. -/
theorem c6_witness :
    (fillLoop starPattern none 1
      ((selfRefSession.fillPush [⟨0, ⟨"s", State.Set⟩⟩]).potential)
      (selfRefSession.fillPush [⟨0, ⟨"s", State.Set⟩⟩])).isSome = true :=
  c6_termination.1 starPattern none 1 _ _ (Nat.le_refl _)

/-- C1 (counterexample): the slot for `b` is unresolved when the first call
(which includes `b` in its line) runs, yet that call returns `true` early
without writing `b`; a second call later writes `b` with its own pattern
`p2` and sequence number 2 — every match a call produces carries that call's
pattern, so the recorded Match is not the one produced by the first call that
included the name while it was unresolved. -/
theorem c1_counterexample :
    abSession.match_by_id 1 = none ∧
    (⟨1, ⟨"b", State.Set⟩⟩ : TrackedAssignment) ∈
      ([⟨1, ⟨"b", State.Set⟩⟩, ⟨0, ⟨"a", State.Set⟩⟩] : List TrackedAssignment) ∧
    abRun1.1 = true ∧
    abRun1.2.match_by_id 1 = none ∧
    abRun2.2.match_by_id 1
      = some ⟨patP2, ⟨"b", State.Unset⟩, MatchKind.Attribute none, ⟨none, 2⟩⟩ ∧
    patP2 ≠ patP1 := by
  refine ⟨by decide, by decide, by decide, by decide, by decide, by decide⟩

/-- C1 (amended): within one session each slot is written at most once — a
resolved slot survives any later call or call sequence unchanged (later
attempts are no-ops), and a newly written slot always carries the pattern and
provenance of the call that actually performed the write (which is the first
call that popped an entry for that name while it was still unresolved, though
not necessarily the first call that merely included the name). -/
theorem c1_first_write_wins :
    (∀ (o : Outcome) (attrs : List TrackedAssignment) (p : Pattern)
        (src : Option String) (n : Nat) (i : Nat) (m : Match),
        o.match_by_id i = some m →
        (o.fill_attributes attrs p src n).2.match_by_id i = some m) ∧
    (∀ (o : Outcome) (attrs : List TrackedAssignment) (p : Pattern)
        (src : Option String) (n : Nat) (i : Nat) (m : Match),
        o.match_by_id i = none →
        (o.fill_attributes attrs p src n).2.match_by_id i = some m →
        m.pattern = p ∧ m.location = ⟨src, n⟩) ∧
    (∀ (o : Outcome) (calls : List FillCall) (i : Nat) (m : Match),
        o.match_by_id i = some m → (runFills o calls).2.match_by_id i = some m) :=
  ⟨fun o attrs p src n i m h => (fill_basic p src n o attrs).2.2.2.1 i m h,
   fun o attrs p src n i m h1 h2 => (fill_basic p src n o attrs).2.2.2.2 i m h1 h2,
   fun o calls i m h => (runFills_basic calls o).2.2.2 i m h⟩

/-- Witness for C1 at the two-call scenario: the `a` slot written by call 1
survives call 2 unchanged, and the match written for `a` carries call 1's
pattern and location. -/
theorem c1_witness :
    abRun2.2.match_by_id 0
      = some ⟨patP1, ⟨"a", State.Set⟩, MatchKind.Attribute none, ⟨none, 1⟩⟩ ∧
    ((⟨patP1, ⟨"a", State.Set⟩, MatchKind.Attribute none, ⟨none, 1⟩⟩ : Match).pattern = patP1 ∧
     (⟨patP1, ⟨"a", State.Set⟩, MatchKind.Attribute none, ⟨none, 1⟩⟩ : Match).location
       = ⟨none, 1⟩) := by
  constructor
  · exact c1_first_write_wins.1 abRun1.2 [⟨1, ⟨"b", State.Unset⟩⟩] patP2 none 2 0
      ⟨patP1, ⟨"a", State.Set⟩, MatchKind.Attribute none, ⟨none, 1⟩⟩ (by decide)
  · exact c1_first_write_wins.2.1 abSession
      [⟨1, ⟨"b", State.Set⟩⟩, ⟨0, ⟨"a", State.Set⟩⟩] patP1 none 1 0
      ⟨patP1, ⟨"a", State.Set⟩, MatchKind.Attribute none, ⟨none, 1⟩⟩ (by decide) (by decide)

/-- C10 (counterexample): after the early `true` return the leftover entry
for `b` (with state `Set`) is indeed still on the stack; but when the next
call's line also names `b`, the slot records the NEW entry's assignment
(`Unset`), because a later call's fresh entries are pushed on top and popped
BEFORE the leftovers — had the leftovers been popped first, `b` would have
recorded `Set`. -/
theorem c10_counterexample :
    abRun1.1 = true ∧
    abRun1.2.attrs_stack = [(1, ⟨"b", State.Set⟩, none)] ∧
    abRun2.2.match_by_id 1
      = some ⟨patP2, ⟨"b", State.Unset⟩, MatchKind.Attribute none, ⟨none, 2⟩⟩ ∧
    (⟨"b", State.Unset⟩ : Assignment) ≠ ⟨"b", State.Set⟩ := by
  refine ⟨by decide, by decide, by decide, by decide⟩

/-- C10 (amended): when `fill_attributes` returns `true` the stack entries
still pending are not discarded (concretely, the `b` entry remains); a
subsequent call pushes its own entries on top and pops those first, only then
the leftovers, and any slot it resolves — leftover or fresh — is recorded
with the later call's pattern, source and sequence number (general third
conjunct; the fourth conjunct shows the leftover being materialized with the
later call's provenance, the fifth that a fresh entry for the same name wins
over the leftover). -/
theorem c10_leftover_entries :
    abRun1.1 = true ∧
    abRun1.2.attrs_stack = [(1, ⟨"b", State.Set⟩, none)] ∧
    (∀ (o : Outcome) (attrs : List TrackedAssignment) (p : Pattern)
        (src : Option String) (n : Nat) (i : Nat) (m : Match),
        o.match_by_id i = none →
        (o.fill_attributes attrs p src n).2.match_by_id i = some m →
        m.pattern = p ∧ m.location = ⟨src, n⟩) ∧
    abRun2e.2.match_by_id 1
      = some ⟨patP2, ⟨"b", State.Set⟩, MatchKind.Attribute none, ⟨none, 2⟩⟩ ∧
    abRun2.2.match_by_id 1
      = some ⟨patP2, ⟨"b", State.Unset⟩, MatchKind.Attribute none, ⟨none, 2⟩⟩ := by
  refine ⟨by decide, by decide, ?_, by decide, by decide⟩
  intro o attrs p src n i m h1 h2
  exact (fill_basic p src n o attrs).2.2.2.2 i m h1 h2

/-- Witness for C10: the general provenance conjunct applied to the leftover
scenario — the `b` match produced from the leftover entry carries the second
call's pattern and location. -/
theorem c10_witness :
    (⟨patP2, ⟨"b", State.Set⟩, MatchKind.Attribute none, ⟨none, 2⟩⟩ : Match).pattern = patP2 ∧
    (⟨patP2, ⟨"b", State.Set⟩, MatchKind.Attribute none, ⟨none, 2⟩⟩ : Match).location
      = ⟨none, 2⟩ :=
  c10_leftover_entries.2.2.1 abRun1.2 [] patP2 none 2 1
    ⟨patP2, ⟨"b", State.Set⟩, MatchKind.Attribute none, ⟨none, 2⟩⟩ (by decide) (by decide)

/-- C2 (counterexample): selecting the same name twice inflates the countdown
— after the only selected handle is resolved, `is_done` is still `false`
(and the call returned `false`), refuting the claim for selections in which a
name occurs more than once. -/
theorem c2_counterexample :
    dupSession.selIds = [0, 0] ∧
    dupRun.1 = false ∧
    (dupRun.2.match_by_id 0).isSome = true ∧
    (∀ i ∈ dupRun.2.selIds, (dupRun.2.match_by_id i).isSome = true) ∧
    dupRun.2.is_done = false := by
  refine ⟨by decide, by decide, by decide, by decide, by decide⟩

/-- C2 (amended): for a session initialized with a selection in which no two
entries resolve to the same handle, and any sequence of well-formed calls:
with an empty selection `is_done` holds exactly when every slot of the
registry is resolved; with a non-empty selection exactly when every selected
handle's slot is resolved; and whenever a call in the sequence returned
`true`, the session was done right after that call (so `fill_attributes`
never returns `true` while a selected handle is unresolved). -/
theorem c2_is_done_sound :
    ∀ (c : MetadataCollection) (names : List String) (calls : List FillCall),
      (∀ pr ∈ c.name_to_meta, ∀ a ∈ pr.2.macro_attributes, a.id < c.size) →
      (names.filterMap (fun nm => (c.lookup nm).map (fun m => m.id))).Nodup →
      (∀ cl ∈ calls, ∀ a ∈ cl.attrs, a.id < c.size) →
      ((names = [] →
        ((runFills (Outcome.blank.init_with_selection c names) calls).2.is_done = true ↔
          ∀ i, i < c.size →
            ((runFills (Outcome.blank.init_with_selection c names) calls).2.match_by_id i).isSome
              = true)) ∧
       (names ≠ [] →
        ((runFills (Outcome.blank.init_with_selection c names) calls).2.is_done = true ↔
          ∀ i ∈ (runFills (Outcome.blank.init_with_selection c names) calls).2.selIds,
            ((runFills (Outcome.blank.init_with_selection c names) calls).2.match_by_id i).isSome
              = true)) ∧
       (∀ k, (runFills (Outcome.blank.init_with_selection c names) calls).1.get? k
              = some true →
          (runFills (Outcome.blank.init_with_selection c names) (calls.take (k + 1))).2.is_done
            = true)) := by
  intro c names calls hmb hnd hcalls
  have hstk0 : (Outcome.blank.init_with_selection c names).attrs_stack = [] :=
    initsel_stack _ c names
  have hsl0 : ∀ s ∈ (Outcome.blank.init_with_selection c names).matches_by_id,
      ∀ a ∈ s.macro_attributes,
        a.id < (Outcome.blank.init_with_selection c names).matches_by_id.length :=
    blank_init_slots_WF c hmb
  have hlen0 : (Outcome.blank.init_with_selection c names).matches_by_id.length = c.size :=
    initsel_length _ c names
  have hcalls' : ∀ cl ∈ calls, ∀ a ∈ cl.attrs,
      a.id < (Outcome.blank.init_with_selection c names).matches_by_id.length := by
    intro cl hcl a ha
    rw [hlen0]
    exact hcalls cl hcl a ha
  have hsel0 : (Outcome.blank.init_with_selection c names).selected
      = names.map (fun nm => (nm, (c.lookup nm).map (fun m => m.id))) :=
    initsel_selected _ c names
  have hselIds0 : (Outcome.blank.init_with_selection c names).selIds
      = names.filterMap (fun nm => (c.lookup nm).map (fun m => m.id)) := by
    unfold Outcome.selIds
    rw [hsel0, List.filterMap_map]
    rfl
  have hnd0 : (Outcome.blank.init_with_selection c names).selected = []
      ∨ (Outcome.blank.init_with_selection c names).selIds.Nodup :=
    Or.inr (by rw [hselIds0]; exact hnd)
  have hinv0 : RemInv (Outcome.blank.init_with_selection c names) :=
    initsel_RemInv _ c names
  obtain ⟨hinvF, -, -⟩ := runFills_inv calls (Outcome.blank.init_with_selection c names)
    (by rw [hstk0]; intro x hx; simp at hx) hsl0 hcalls' hnd0 hinv0
  have hselF : (runFills (Outcome.blank.init_with_selection c names) calls).2.selected
      = (Outcome.blank.init_with_selection c names).selected :=
    (runFills_basic calls _).2.1
  have hlenF : (runFills (Outcome.blank.init_with_selection c names) calls).2.matches_by_id.length
      = (Outcome.blank.init_with_selection c names).matches_by_id.length :=
    (runFills_basic calls _).1
  have hdone := is_done_of_RemInv _ hinvF
  refine ⟨?_, ?_, fun k hk => runFills_true_take calls _ k hk⟩
  · intro hnames
    have hseE : (runFills (Outcome.blank.init_with_selection c names) calls).2.selected.isEmpty
        = true := by
      rw [hselF, hsel0, hnames]
      rfl
    rw [if_pos hseE] at hdone
    rw [hdone, unresolvedCount_eq_zero_iff]
    have hL : (runFills (Outcome.blank.init_with_selection c names) calls).2.matches_by_id.length
        = c.size := by rw [hlenF, hlen0]
    constructor
    · intro h i hi
      exact h i (by rw [hL]; exact hi)
    · intro h i hi
      exact h i (by rw [← hL]; exact hi)
  · intro hnames
    have hseE : (runFills (Outcome.blank.init_with_selection c names) calls).2.selected.isEmpty
        = false := by
      rw [hselF, hsel0]
      cases names with
      | nil => exact absurd rfl hnames
      | cons x xs => rfl
    rw [if_neg (by rw [hseE]; exact Bool.false_ne_true)] at hdone
    rw [hdone]
    exact selUnresolved_eq_zero_iff _

/-- Witness for C2 at the spec's binary scenario: resolving `*.png binary`
completes the selection `text, diff, binary`, so the session is done. -/
theorem c2_witness :
    (runFills binSession [⟨[⟨1, ⟨"binary", State.Set⟩⟩], pngPattern, none, 1⟩]).2.is_done
      = true := by
  have h := (c2_is_done_sound binRegistry ["text", "diff", "binary"]
    [⟨[⟨1, ⟨"binary", State.Set⟩⟩], pngPattern, none, 1⟩]
    (by decide) (by decide) (by decide)).2.1 (by decide)
  exact h.mpr (by decide)

/-- C3 (counterexample): with the slot-array length already equal to the
registry size, `initialize` copies no macro snapshot (the registry's macro
`m` has a non-empty member list, yet the slot keeps its stale empty one);
and with a larger slot array, `Vec::resize` shrinks it to the registry
size. -/
theorem c3_counterexample :
    ((sameLenSession.init selfMacroRegistry).matches_by_id.map
        (fun s => s.macro_attributes) = [[]]) ∧
    selfMacroRegistry.name_to_meta.get? 0
      = some ("m", ⟨0, [⟨0, ⟨"a", State.Unset⟩⟩]⟩) ∧
    sameLenSession.matches_by_id.length = selfMacroRegistry.size ∧
    longerSession.matches_by_id.length = 2 ∧
    selfMacroRegistry.size = 1 ∧
    (longerSession.init selfMacroRegistry).matches_by_id.length = 1 := by
  refine ⟨by decide, by decide, by decide, by decide, by decide, by decide⟩

/-- C3 (amended): when the slot-array length already equals the registry
size, `initialize` is exactly `reset` (no resize, no snapshot copy); when the
lengths differ it resizes the slot array to the registry's size — growing or
shrinking — and, for a canonical registry, copies every macro entry's member
list into the slot at its id; in all cases the work stack is cleared and
every slot ends unresolved (the trailing `reset`). -/
theorem c3_init_behavior :
    ∀ (o : Outcome) (c : MetadataCollection),
      (o.matches_by_id.length = c.size → o.init c = o.reset) ∧
      (o.matches_by_id.length ≠ c.size →
        ((o.init c).matches_by_id.length = c.size ∧
         (c.canonical →
           ∀ k kv, c.name_to_meta.get? k = some kv → kv.2.macro_attributes ≠ [] →
             ((o.init c).matches_by_id.get? kv.2.id).map (fun s => s.macro_attributes)
               = some kv.2.macro_attributes))) ∧
      ((o.init c).attrs_stack = [] ∧ ∀ i, (o.init c).match_by_id i = none) := by
  intro o c
  refine ⟨?_, ?_, rfl, fun i => init_match_none o c i⟩
  · intro heq
    unfold Outcome.init
    rw [if_neg (fun h => h heq)]
  · intro hne
    refine ⟨init_length o c, ?_⟩
    intro hcanon k kv hk hnm
    have hchar : (o.init c).matches_by_id
        = (copyMacros c.name_to_meta (resizeWith o.matches_by_id c.size ⟨none, []⟩)).map
            (fun s => { s with rmatch := none }) := by
      unfold Outcome.init Outcome.reset Outcome.reset_remaining
      rw [if_pos hne]
    have hid : kv.2.id = k := by
      have := canonicalFromB_get c.name_to_meta 0 k kv hcanon hk
      omega
    have hklt : 0 + k < (resizeWith o.matches_by_id c.size (⟨none, []⟩ : Slot)).length := by
      rw [resizeWith_length]
      have := getq_lt hk
      unfold MetadataCollection.size
      omega
    have hcopy := copyMacros_get_canonical c.name_to_meta 0 _ k kv hcanon hk hnm hklt
    simp only [Nat.zero_add] at hcopy
    rw [hchar, hid, List.get?_map]
    cases hg : (copyMacros c.name_to_meta
        (resizeWith o.matches_by_id c.size ⟨none, []⟩)).get? k with
    | none => rw [hg] at hcopy; cases hcopy
    | some s =>
      rw [hg] at hcopy
      simp at hcopy ⊢
      exact hcopy

/-- Witness for C3: the shrink at the concrete longer session, and the macro
snapshot copied into a freshly initialized session. -/
theorem c3_witness :
    (longerSession.init selfMacroRegistry).matches_by_id.length = selfMacroRegistry.size ∧
    ((Outcome.blank.init selfMacroRegistry).matches_by_id.get? 0).map
        (fun s => s.macro_attributes)
      = some [⟨0, ⟨"a", State.Unset⟩⟩] := by
  constructor
  · exact ((c3_init_behavior longerSession selfMacroRegistry).2.1 (by decide)).1
  · exact ((c3_init_behavior Outcome.blank selfMacroRegistry).2.1 (by decide)).2 rfl
      0 ("m", ⟨0, [⟨0, ⟨"a", State.Unset⟩⟩]⟩) (by decide) (by decide)

/-- C4 (counterexample): under the selection containing only the macro `m`,
resolving the line `* m` writes `m`, drives the countdown to zero and returns
`true` immediately — the member `a` (id 1), unresolved when the call started,
is left unresolved instead of being recorded as `Attribute (some m)`. -/
theorem c4_counterexample :
    selMacroSession.match_by_id 0 = none ∧
    selMacroSession.match_by_id 1 = none ∧
    selMacroSession.slotMems 0 = [⟨1, ⟨"a", State.Unset⟩⟩] ∧
    selMacroRun.1 = true ∧
    selMacroRun.2.match_by_id 1 = none := by
  refine ⟨by decide, by decide, by decide, by decide, by decide⟩

/-- C4 (amended): in an unselected session with an empty work stack, a line
consisting solely of a macro whose members are plain, unresolved and distinct
from the macro resolves, in that single call, the macro as `Macro none` and
every member with kind `Attribute (some macro)` and this call's provenance
(general first conjunct).  Concretely, on the spec's scenario (`text` plain,
macro `binary = [text=false, diff=false]`, line `*.png binary`, selection
`text, diff, binary`): `binary ↦ Macro none`, `text`/`diff` ↦
`Attribute (some binary)` with state unset, the call returns `true` and the
session is done; and in the nested registry, the inner macro is recorded as
`Macro (some outer)`. -/
theorem c4_macro_expansion :
    (∀ (p : Pattern) (src : Option String) (n : Nat) (o : Outcome)
        (tm : TrackedAssignment),
        o.selected = [] → RemInv o → o.attrs_stack = [] →
        tm.id < o.matches_by_id.length →
        o.match_by_id tm.id = none →
        o.slotMems tm.id ≠ [] →
        (∀ a ∈ o.slotMems tm.id, a.id < o.matches_by_id.length ∧ o.slotMems a.id = [] ∧
            o.match_by_id a.id = none ∧ a.id ≠ tm.id) →
        ((o.fill_attributes [tm] p src n).2.match_by_id tm.id
            = some ⟨p, tm.inner, MatchKind.Macro none, ⟨src, n⟩⟩ ∧
         (∀ a ∈ o.slotMems tm.id, ∃ mr,
            (o.fill_attributes [tm] p src n).2.match_by_id a.id = some mr ∧
            mr.kind = MatchKind.Attribute (some tm.id) ∧ mr.pattern = p ∧
            mr.location = ⟨src, n⟩))) ∧
    binRun.1 = true ∧
    binRun.2.match_by_id 1
      = some ⟨pngPattern, ⟨"binary", State.Set⟩, MatchKind.Macro none, ⟨none, 1⟩⟩ ∧
    binRun.2.match_by_id 0
      = some ⟨pngPattern, ⟨"text", State.Unset⟩, MatchKind.Attribute (some 1), ⟨none, 1⟩⟩ ∧
    binRun.2.match_by_id 2
      = some ⟨pngPattern, ⟨"diff", State.Unset⟩, MatchKind.Attribute (some 1), ⟨none, 1⟩⟩ ∧
    binRun.2.is_done = true ∧
    nestRun.2.match_by_id 1
      = some ⟨starPattern, ⟨"m2", State.Set⟩, MatchKind.Macro (some 0), ⟨none, 1⟩⟩ ∧
    nestRun.2.match_by_id 2
      = some ⟨starPattern, ⟨"a", State.Set⟩, MatchKind.Attribute (some 1), ⟨none, 1⟩⟩ := by
  refine ⟨?_, by decide, by decide, by decide, by decide, by decide, by decide, by decide⟩
  intro p src n o tm h1 h2 h3 h4 h5 h6 h7
  exact fill_macro_solo p src n o tm h1 h2 h3 h4 h5 h6 h7

/-- Witness for C4's general conjunct at the `a`/`m` registry: the solo macro
line resolves `m` as `Macro none` and its member `a` as
`Attribute (some m)`. -/
theorem c4_witness :
    (amSession.fill_attributes [⟨1, ⟨"m", State.Set⟩⟩] patQ none 1).2.match_by_id 1
        = some ⟨patQ, ⟨"m", State.Set⟩, MatchKind.Macro none, ⟨none, 1⟩⟩ ∧
    (∀ a ∈ amSession.slotMems 1, ∃ mr,
        (amSession.fill_attributes [⟨1, ⟨"m", State.Set⟩⟩] patQ none 1).2.match_by_id a.id
          = some mr ∧
        mr.kind = MatchKind.Attribute (some 1) ∧ mr.pattern = patQ ∧
        mr.location = ⟨none, 1⟩) :=
  c4_macro_expansion.1 patQ none 1 amSession ⟨1, ⟨"m", State.Set⟩⟩
    (by decide) rfl (by decide) (by decide) (by decide) (by decide) (by decide)

/-- C5: on a line of plain attributes fed to a session with an empty stack,
entries are pushed preserving the line's order and processed in reverse, so
the occurrence that survives for a handle is the LAST one listed (general
first conjunct: if nothing after `a` names `a.id`, the slot either stays
unresolved — early return — or records exactly `a`'s assignment as a direct
`Attribute none` write); and when a handle is reachable both directly and
through a macro in the same line, whichever occurrence pops first wins: with
the line `a m` the macro pops first and `a` is recorded via the macro
(`Attribute (some m)`, the macro's stored state), with the line `m a` the
direct entry pops first (`Attribute none`, the line's state). -/
theorem c5_lifo_order :
    (∀ (o : Outcome) (l1 l2 : List TrackedAssignment) (a : TrackedAssignment)
        (p : Pattern) (src : Option String) (n : Nat),
        o.attrs_stack = [] →
        (∀ x ∈ l1 ++ a :: l2, o.slotMems x.id = [] ∧ x.id < o.matches_by_id.length) →
        (∀ x ∈ l2, x.id ≠ a.id) →
        o.match_by_id a.id = none →
        ((o.fill_attributes (l1 ++ a :: l2) p src n).2.match_by_id a.id = none ∨
         (o.fill_attributes (l1 ++ a :: l2) p src n).2.match_by_id a.id
           = some ⟨p, a.inner, MatchKind.Attribute none, ⟨src, n⟩⟩)) ∧
    amRunAM.2.match_by_id 0
      = some ⟨patQ, ⟨"a", State.Unset⟩, MatchKind.Attribute (some 1), ⟨none, 1⟩⟩ ∧
    amRunMA.2.match_by_id 0
      = some ⟨patQ, ⟨"a", State.Set⟩, MatchKind.Attribute none, ⟨none, 1⟩⟩ := by
  refine ⟨?_, by decide, by decide⟩
  intro o l1 l2 a p src n hstk hplain hl2 hun
  have hloop := fill_eq_loop p src n o (l1 ++ a :: l2)
  rcases hfr : o.fill_attributes (l1 ++ a :: l2) p src n with ⟨b, o'⟩
  rw [hfr] at hloop
  have hfa : (o.match_by_id a.id).isNone = true := by rw [hun]; rfl
  have hfil : (l1 ++ a :: l2).filter (fun x => (o.match_by_id x.id).isNone)
      = (l1.filter (fun x => (o.match_by_id x.id).isNone))
        ++ a :: (l2.filter (fun x => (o.match_by_id x.id).isNone)) := by
    rw [List.filter_append, List.filter_cons, if_pos hfa]
  have hpush : (o.fillPush (l1 ++ a :: l2)).attrs_stack
      = ((l2.filter (fun x => (o.match_by_id x.id).isNone)).map
            (fun x => (x.id, x.inner, (none : Option Nat)))).reverse
        ++ (a.id, a.inner, (none : Option Nat))
          :: ((l1.filter (fun x => (o.match_by_id x.id).isNone)).map
            (fun x => (x.id, x.inner, (none : Option Nat)))).reverse := by
    show (((l1 ++ a :: l2).filter (fun x => (o.match_by_id x.id).isNone)).map
        (fun x => (x.id, x.inner, (none : Option Nat)))).reverse ++ o.attrs_stack = _
    rw [hstk, List.append_nil, hfil, List.map_append, List.map_cons,
      List.reverse_append, List.reverse_cons, List.append_assoc, List.singleton_append]
  have hplain' : ∀ x ∈ (o.fillPush (l1 ++ a :: l2)).attrs_stack,
      (o.fillPush (l1 ++ a :: l2)).slotMems x.1 = []
        ∧ x.1 < (o.fillPush (l1 ++ a :: l2)).matches_by_id.length := by
    intro x hx
    rcases fillPush_stack_mem o (l1 ++ a :: l2) x hx with h1 | ⟨y, hy, rfl⟩
    · rw [hstk] at h1; simp at h1
    · exact hplain y hy
  have hnone' : (o.fillPush (l1 ++ a :: l2)).match_by_id a.id = none := hun
  have hmain := (fillLoop_plain p src n a.id _ _ _ _ hloop hplain' hnone').2
    (((l2.filter (fun x => (o.match_by_id x.id).isNone)).map
        (fun x => (x.id, x.inner, (none : Option Nat)))).reverse)
    (((l1.filter (fun x => (o.match_by_id x.id).isNone)).map
        (fun x => (x.id, x.inner, (none : Option Nat)))).reverse)
    (a.id, a.inner, none) hpush rfl ?_
  · exact hmain
  · intro x hx
    simp only [List.mem_reverse, List.mem_map] at hx
    obtain ⟨y, hy, rfl⟩ := hx
    exact hl2 y (List.mem_of_mem_filter hy)

/-- Witness for C5's general conjunct: on the line `a=Set b=Set a=Unset` the
recorded match for `a` is the last occurrence (`Unset`), a direct write. -/
theorem c5_witness :
    ((Outcome.blank.init abRegistry).fill_attributes
        [⟨0, ⟨"a", State.Set⟩⟩, ⟨1, ⟨"b", State.Set⟩⟩, ⟨0, ⟨"a", State.Unset⟩⟩]
        patQ none 1).2.match_by_id 0 = none ∨
    ((Outcome.blank.init abRegistry).fill_attributes
        [⟨0, ⟨"a", State.Set⟩⟩, ⟨1, ⟨"b", State.Set⟩⟩, ⟨0, ⟨"a", State.Unset⟩⟩]
        patQ none 1).2.match_by_id 0
      = some ⟨patQ, ⟨"a", State.Unset⟩, MatchKind.Attribute none, ⟨none, 1⟩⟩ :=
  c5_lifo_order.1 (Outcome.blank.init abRegistry)
    [⟨0, ⟨"a", State.Set⟩⟩, ⟨1, ⟨"b", State.Set⟩⟩] [] ⟨0, ⟨"a", State.Unset⟩⟩
    patQ none 1 (by decide) (by decide) (by decide) (by decide)

theorem iter_selected_get (o : Outcome) (j : Nat) (nm : String) (oid : Option Nat)
    (h : o.selected.get? j = some (nm, oid)) :
    o.iter_selected.get? j
      = some (match oid.bind (fun id => o.match_by_id id) with
          | some m => m
          | none => ⟨⟨"", 0, none⟩, ⟨nm, State.Unspecified⟩,
              MatchKind.Attribute none, ⟨none, 0⟩⟩) := by
  unfold Outcome.iter_selected
  rw [List.get?_map, h]
  rfl

theorem selFilter_len (c : MetadataCollection) : ∀ (names : List String),
    ((names.map (fun nm => (nm, (c.lookup nm).map (fun m => m.id)))).filter
        (fun pr => pr.2.isSome)).length
      = (names.filter (fun nm => (c.lookup nm).isSome)).length := by
  intro names
  induction names with
  | nil => rfl
  | cons nm rest ih =>
    simp only [List.map_cons, List.filter_cons]
    cases h : c.lookup nm with
    | none => simpa [h] using ih
    | some meta => simpa [h] using ih

/-- C7: after `initialize_with_selection` over a canonical registry and any
sequence of `fill_attributes` calls, `iter_selected` yields exactly one output
per requested name in the requested order; a name absent from the registry
yields the placeholder match (empty pattern, unspecified state), a present but
still-unresolved name yields the same placeholder, and a present resolved name
yields that slot's match (its handle being in range); and for a nonempty
selection the countdown counts exactly the names present in the registry, so
absent names never contribute to `remaining`/`is_done`. -/
theorem c7_iter_selected (o : Outcome) (c : MetadataCollection) (names : List String)
    (calls : List FillCall) (hc : c.canonical) :
    (runFills (o.init_with_selection c names) calls).2.iter_selected.length
        = names.length ∧
    (∀ j nm, names.get? j = some nm →
       (c.lookup nm = none →
          (runFills (o.init_with_selection c names) calls).2.iter_selected.get? j
            = some ⟨⟨"", 0, none⟩, ⟨nm, State.Unspecified⟩,
                MatchKind.Attribute none, ⟨none, 0⟩⟩) ∧
       (∀ meta, c.lookup nm = some meta →
          meta.id < (runFills (o.init_with_selection c names) calls).2.matches_by_id.length ∧
          ((runFills (o.init_with_selection c names) calls).2.match_by_id meta.id = none →
             (runFills (o.init_with_selection c names) calls).2.iter_selected.get? j
               = some ⟨⟨"", 0, none⟩, ⟨nm, State.Unspecified⟩,
                   MatchKind.Attribute none, ⟨none, 0⟩⟩) ∧
          (∀ m, (runFills (o.init_with_selection c names) calls).2.match_by_id meta.id
                  = some m →
             (runFills (o.init_with_selection c names) calls).2.iter_selected.get? j
               = some m))) ∧
    (names ≠ [] →
       (o.init_with_selection c names).remaining
         = some ((names.filter (fun nm => (c.lookup nm).isSome)).length)) := by
  have hsel : (runFills (o.init_with_selection c names) calls).2.selected
      = names.map (fun nm => (nm, (c.lookup nm).map (fun m => m.id))) := by
    rw [(runFills_basic calls _).2.1, initsel_selected]
  have hlen : (runFills (o.init_with_selection c names) calls).2.matches_by_id.length
      = c.size := by
    rw [(runFills_basic calls _).1, initsel_length]
  refine ⟨?_, ?_, ?_⟩
  · unfold Outcome.iter_selected
    rw [hsel, List.length_map, List.length_map]
  · intro j nm hj
    refine ⟨?_, ?_⟩
    · intro hnone
      have hsg : (runFills (o.init_with_selection c names) calls).2.selected.get? j
          = some (nm, none) := by
        rw [hsel, List.get?_map, hj]
        show some (nm, (c.lookup nm).map (fun m => m.id)) = some (nm, none)
        rw [hnone]
        rfl
      rw [iter_selected_get _ j nm none hsg]
      rfl
    · intro meta hmeta
      have hsg : (runFills (o.init_with_selection c names) calls).2.selected.get? j
          = some (nm, some meta.id) := by
        rw [hsel, List.get?_map, hj]
        show some (nm, (c.lookup nm).map (fun m => m.id)) = some (nm, some meta.id)
        rw [hmeta]
        rfl
      refine ⟨?_, ?_, ?_⟩
      · rw [hlen]
        exact canonical_lookup_lt c hc hmeta
      · intro hun
        rw [iter_selected_get _ j nm (some meta.id) hsg]
        have h2 : (some meta.id).bind (fun id =>
            (runFills (o.init_with_selection c names) calls).2.match_by_id id) = none := hun
        rw [h2]
      · intro m hm
        rw [iter_selected_get _ j nm (some meta.id) hsg]
        have h2 : (some meta.id).bind (fun id =>
            (runFills (o.init_with_selection c names) calls).2.match_by_id id)
              = some m := hm
        rw [h2]
  · intro hne
    show some (if (names.map (fun nm => (nm, (c.lookup nm).map (fun m => m.id)))).isEmpty
            then (o.init c).matches_by_id.length
            else ((names.map (fun nm => (nm, (c.lookup nm).map (fun m => m.id)))).filter
                    (fun pr => pr.2.isSome)).length)
        = some ((names.filter (fun nm => (c.lookup nm).isSome)).length)
    have hemp : (names.map (fun nm => (nm, (c.lookup nm).map (fun m => m.id)))).isEmpty
        = false := by
      cases names with
      | nil => exact absurd rfl hne
      | cons a l => rfl
    rw [hemp, if_neg Bool.false_ne_true]
    exact congrArg some (selFilter_len c names)

/-- Witness for C7 at `binRegistry` with the selection `text, zzz` (the second
name absent from the registry): two outputs, position 1 is the placeholder,
and the countdown counts only `text`. -/
theorem c7_witness :
    (runFills (Outcome.blank.init_with_selection binRegistry ["text", "zzz"])
        []).2.iter_selected.length = 2 ∧
    (runFills (Outcome.blank.init_with_selection binRegistry ["text", "zzz"])
        []).2.iter_selected.get? 1
      = some ⟨⟨"", 0, none⟩, ⟨"zzz", State.Unspecified⟩,
          MatchKind.Attribute none, ⟨none, 0⟩⟩ ∧
    (Outcome.blank.init_with_selection binRegistry ["text", "zzz"]).remaining = some 1 := by
  refine ⟨?_, ?_, ?_⟩
  · exact (c7_iter_selected Outcome.blank binRegistry ["text", "zzz"] [] rfl).1
  · exact ((c7_iter_selected Outcome.blank binRegistry ["text", "zzz"] [] rfl).2.1
      1 "zzz" rfl).1 rfl
  · exact ((c7_iter_selected Outcome.blank binRegistry ["text", "zzz"] [] rfl).2.2
      (by decide)).trans rfl

end Claims

end Gix
